import Mathlib

/-!
Verification of the aspect-ratio extraction pipeline of the background
service worker (the multi-ratio extractor in `popup.js`: the functions
`normalizeAspectRatioText`, `findAspectRatioBlocks`, `parseRatiosFromBlock`,
`uniqueRatios`, `ratioToNumber`, `mapRatioToType`, `scoreForPrimary`,
`choosePrimaryRatio` and the pure tail of `fetchImdbAspectRatio`).

Modelling conventions:
* JavaScript strings are `List Char` (`Chars`); `String.prototype.trim`,
  `\s` and friends are modelled over the ASCII whitespace characters.
* JavaScript numbers are modelled as exact rationals (`ℚ`) in the main
  embedding; this is numerically neutral for the structural claims and
  for the concrete inputs evaluated here.  Where IEEE-754 double rounding
  itself is the point (claim C1), the binary64 rounding model `f64` and
  the `F64` variants of the segment parser are used instead.
* The regular expressions of the source are compiled by hand into
  deterministic scanners.  Every regex used by the source is built from
  literals, character classes and the quantifiers `*`, `+`, `*?`, `??`
  in positions where a failed greedy/lazy attempt cannot be rescued by
  backtracking (each quantified class is followed by a literal that the
  class excludes, or by an unconditional `[\s\S]*?`), so the scanners
  below implement the exact JavaScript semantics: try each start
  position from the left, and inside a position resolve each greedy
  quantifier maximally and each lazy quantifier minimally.
-/

/- Let concrete rational computations reduce: Batteries marks the `Rat`
operations irreducible for the elaborator, which blocks `decide` on fully
concrete goals; the kernel checks the resulting proofs in full either way. -/
set_option allowUnsafeReducibility true

attribute [semireducible] Rat.add Rat.mul Rat.inv Rat.sub Rat.ofScientific

/- The binary64 range bounds of claim C1 use the literal powers 2 ^ 1022
and 2 ^ 1023; let concrete evaluation handle them. -/
set_option maxRecDepth 4000

set_option exponentiation.threshold 2000

/-! ## Characters and basic string operations -/

abbrev Chars := List Char

def chars (s : String) : Chars := s.data

/-- The whitespace class `\s` of JavaScript regular expressions and
`String.prototype.trim`, restricted to ASCII. -/
def isWs (c : Char) : Bool :=
  c = ' ' || c = '\t' || c = '\n' || c = '\r' || c = '\x0b' || c = '\x0c'

/-- The word class `\w` (`[A-Za-z0-9_]`), for `\b` word boundaries. -/
def isWordChar (c : Char) : Bool :=
  ('a' ≤ c && c ≤ 'z') || ('A' ≤ c && c ≤ 'Z') || ('0' ≤ c && c ≤ '9') || c = '_'

/-- ASCII lowercasing, as performed by `String.prototype.toLowerCase` and
by case-insensitive (`/i`) regex matching on the characters this code uses. -/
def lowerChar : Char → Char
  | 'A' => 'a' | 'B' => 'b' | 'C' => 'c' | 'D' => 'd' | 'E' => 'e' | 'F' => 'f'
  | 'G' => 'g' | 'H' => 'h' | 'I' => 'i' | 'J' => 'j' | 'K' => 'k' | 'L' => 'l'
  | 'M' => 'm' | 'N' => 'n' | 'O' => 'o' | 'P' => 'p' | 'Q' => 'q' | 'R' => 'r'
  | 'S' => 's' | 'T' => 't' | 'U' => 'u' | 'V' => 'v' | 'W' => 'w' | 'X' => 'x'
  | 'Y' => 'y' | 'Z' => 'z' | c => c

def lowerStr (v : Chars) : Chars := v.map lowerChar

/-- Case-insensitive prefix test: does `v` start with `pat`, comparing
characters through `lowerChar`? -/
def startsWithCI : Chars → Chars → Bool
  | [], _ => true
  | _ :: _, [] => false
  | p :: ps, c :: cs => lowerChar c = lowerChar p && startsWithCI ps cs

/-- `hay.indexOf(needle)` of JavaScript (case-sensitive, leftmost). -/
def indexOfSub (needle hay : Chars) : Option Nat :=
  (List.range (hay.length + 1)).find? (fun j => needle.isPrefixOf (hay.drop j))

/-- Leftmost position of a case-insensitive occurrence of `pat` in `v`. -/
def indexOfCI (pat v : Chars) : Option Nat :=
  (List.range (v.length + 1)).find? (fun j => startsWithCI pat (v.drop j))

def countLeading (p : Char → Bool) (v : Chars) : Nat := (v.takeWhile p).length

/-- `String.prototype.trim` (ASCII whitespace). -/
def trimStr (v : Chars) : Chars :=
  ((v.dropWhile isWs).reverse.dropWhile isWs).reverse

/-! ## A generic scanner for global regex replacement

`scanReplace f v` models `v.replace(re, r)` with the `g` flag for a regex
compiled to `f`: at each position, `f` applied to the remaining suffix
returns `some (k, r)` when the regex matches a prefix of length `k`
(always ≥ 1 for the regexes used here) to be replaced by `r`; scanning
resumes after the match, exactly like `lastIndex` advancing. -/

def scanReplaceF (f : Chars → Option (Nat × Chars)) : Nat → Chars → Chars
  | 0, v => v
  | _ + 1, [] => []
  | fuel + 1, c :: cs =>
    match f (c :: cs) with
    | some (k, r) => r ++ scanReplaceF f fuel (cs.drop (k - 1))
    | none => c :: scanReplaceF f fuel cs

/-- The fuel argument is only a structural-recursion device: the scan
consumes at least one character per step, so `v.length` steps suffice. -/
def scanReplace (f : Chars → Option (Nat × Chars)) (v : Chars) : Chars :=
  scanReplaceF f v.length v

/-- `String.prototype.match` with the `g` flag: the list of all
(non-overlapping, leftmost) matches, where `f` maps a suffix to the length
of the match starting there, if any. -/
def collectMatchesF (f : Chars → Option Nat) : Nat → Chars → List Chars
  | 0, _ => []
  | _ + 1, [] => []
  | fuel + 1, c :: cs =>
    match f (c :: cs) with
    | some k => (c :: cs).take k :: collectMatchesF f fuel (cs.drop (k - 1))
    | none => collectMatchesF f fuel cs

def collectMatches (f : Chars → Option Nat) (v : Chars) : List Chars :=
  collectMatchesF f v.length v

/-! ## Numbers: `parseFloat`, `Math.round`, `toFixed(2)` -/

/-- Value of a decimal digit ('0'-'9'). -/
def digitVal (c : Char) : Nat := c.toNat - 48

def digitsToNat (ds : Chars) : Nat := ds.foldl (fun a c => 10 * a + digitVal c) 0

/-- `parseFloat` on the strings captured by `(\d+(?:\.\d+)?)`: an integer
digit run optionally followed by a dot and a fractional digit run.  Exact
rational value (see the module comment on IEEE-754). -/
def parseDec (v : Chars) : ℚ :=
  let ip := v.takeWhile Char.isDigit
  let rest := v.dropWhile Char.isDigit
  match rest with
  | '.' :: fs =>
    let fp := fs.takeWhile Char.isDigit
    (digitsToNat ip : ℚ) + (digitsToNat fp : ℚ) / ((10 : ℚ) ^ fp.length)
  | _ => (digitsToNat ip : ℚ)

/-- `Math.round` (round half away from zero is round half up on the
nonnegative values produced here): `Math.round(x) = ⌊x + 1/2⌋`. -/
def jsRound (q : ℚ) : ℤ := Int.floor (q + 1 / 2)

def digitOfNat : Nat → Char
  | 0 => '0' | 1 => '1' | 2 => '2' | 3 => '3' | 4 => '4'
  | 5 => '5' | 6 => '6' | 7 => '7' | 8 => '8' | _ => '9'

def natDigitsF : Nat → Nat → Chars
  | 0, _ => []
  | fuel + 1, n =>
    if n < 10 then [digitOfNat n]
    else natDigitsF fuel (n / 10) ++ [digitOfNat (n % 10)]

/-- Decimal digits of a natural number, as printed by JavaScript (the
fuel argument is only a structural-recursion device). -/
def natDigits (n : Nat) : Chars := natDigitsF (n + 1) n

/-- `(k / 100).toFixed(2)` for a natural `k`: the canonical two-decimal
rendering used for ratio values (`Math.round(v*100)/100` followed by
`.toFixed(2)` prints exactly `k div 100 "." (k mod 100 padded to 2)`). -/
def fmtFixed2 (k : Nat) : Chars :=
  natDigits (k / 100) ++ '.' :: [digitOfNat (k % 100 / 10), digitOfNat (k % 10)]

/-- The canonical ratio string `X.XX:1` for the two-decimal value `k/100`. -/
def fmtRatio2 (k : Nat) : Chars := fmtFixed2 k ++ [':', '1']

/-! ## The numeric ratio token scanner

The regex `(\d+(?:\.\d+)?)\s*:\s*(\d+(?:\.\d+)?)` of `parseRatiosFromBlock`
(and of `ratioToNumber`).  At a fixed start position its greedy parts are
deterministic: each digit run is maximal, the optional fraction `(?:\.\d+)?`
is taken exactly when a dot followed by a digit is present (declining it
cannot help, because the following `\s*:` cannot consume the dot), and each
`\s*` run is maximal (the following literal is not whitespace). -/

/-- Scan `\d+(?:\.\d+)?` at the start of `v`: the captured characters and
the rest of the string. -/
def numScan (v : Chars) : Option (Chars × Chars) :=
  let d := v.takeWhile Char.isDigit
  if d = [] then none
  else
    let r := v.dropWhile Char.isDigit
    match r with
    | '.' :: t =>
      let f := t.takeWhile Char.isDigit
      if f = [] then some (d, r)
      else some (d ++ '.' :: f, t.dropWhile Char.isDigit)
    | _ => some (d, r)

/-- Match the full ratio pattern at the start of `v`; returns the two
captures and the length of the whole match. -/
def ratioMatchAt (v : Chars) : Option (Chars × Chars × Nat) :=
  match numScan v with
  | none => none
  | some (nc, r2) =>
    match r2.dropWhile isWs with
    | ':' :: t3 =>
      match numScan (t3.dropWhile isWs) with
      | none => none
      | some (dc, rest) => some (nc, dc, v.length - rest.length)
    | _ => none

/-- `p.match(re)` without the `g` flag: the leftmost match of the ratio
pattern, as (start index, numerator capture, denominator capture, length). -/
def firstRatioMatch (p : Chars) : Option (Nat × Chars × Chars × Nat) :=
  match (List.range p.length).find? (fun j => (ratioMatchAt (p.drop j)).isSome) with
  | some j =>
    match ratioMatchAt (p.drop j) with
    | some (nc, dc, len) => some (j, nc, dc, len)
    | none => none
  | none => none

/-! ## Tag stripping (the replace chain opening `parseRatiosFromBlock`) -/

/-- Matcher for `<script[\s\S]*?<\/script>` (or `style`): `open_` is the
literal `<script`, `close` the literal `</script>`; the lazy middle ends at
the nearest closing literal.  Replaced by the empty string. -/
def enclosedMatcher (open_ close : Chars) (v : Chars) : Option (Nat × Chars) :=
  if startsWithCI open_ v then
    match indexOfCI close (v.drop open_.length) with
    | some j => some (open_.length + j + close.length, [])
    | none => none
  else none

/-- Matcher for an opening tag `<name\b[^>]*>`, replaced by a space. -/
def openTagMatcher (name : Chars) (v : Chars) : Option (Nat × Chars) :=
  if startsWithCI ('<' :: name) v then
    let r := v.drop (1 + name.length)
    match r with
    | [] => none
    | c :: _ =>
      if isWordChar c then none
      else
        match indexOfSub ['>'] r with
        | some j => some (1 + name.length + j + 1, [' '])
        | none => none
  else none

/-- Matcher for a literal (case-insensitive) such as `</a>`, replaced by a
space. -/
def litMatcher (lit : Chars) (v : Chars) : Option (Nat × Chars) :=
  if startsWithCI lit v then some (lit.length, [' ']) else none

/-- Matcher for `<br\s*\/?>`, replaced by a space. -/
def brMatcher (v : Chars) : Option (Nat × Chars) :=
  if startsWithCI (chars "<br") v then
    let a := countLeading isWs (v.drop 3)
    match v.drop (3 + a) with
    | '/' :: '>' :: _ => some (3 + a + 2, [' '])
    | '>' :: _ => some (3 + a + 1, [' '])
    | _ => none
  else none

/-- Matcher for the generic `<[^>]*>`, replaced by a space. -/
def anyTagMatcher (v : Chars) : Option (Nat × Chars) :=
  match v with
  | '<' :: r =>
    match indexOfSub ['>'] r with
    | some j => some (1 + j + 1, [' '])
    | none => none
  | _ => none

/-- Matcher for `\s+`, replaced by a single space. -/
def wsRunMatcher (v : Chars) : Option (Nat × Chars) :=
  match v with
  | c :: _ => if isWs c then some (countLeading isWs v, [' ']) else none
  | [] => none

/-- The whole "aggressively remove all HTML tags" chain of
`parseRatiosFromBlock`, in source order, ending with `\s+ → " "` and
`trim`. -/
def stripTags (blockHtml : Chars) : Chars :=
  let s1 := scanReplace (enclosedMatcher (chars "<script") (chars "</script>")) blockHtml
  let s2 := scanReplace (enclosedMatcher (chars "<style") (chars "</style>")) s1
  let s3 := scanReplace (openTagMatcher (chars "a")) s2
  let s4 := scanReplace (litMatcher (chars "</a>")) s3
  let s5 := scanReplace (openTagMatcher (chars "li")) s4
  let s6 := scanReplace (litMatcher (chars "</li>")) s5
  let s7 := scanReplace (openTagMatcher (chars "ul")) s6
  let s8 := scanReplace (litMatcher (chars "</ul>")) s7
  let s9 := scanReplace (openTagMatcher (chars "div")) s8
  let s10 := scanReplace (litMatcher (chars "</div>")) s9
  let s11 := scanReplace (openTagMatcher (chars "span")) s10
  let s12 := scanReplace (litMatcher (chars "</span>")) s11
  let s13 := scanReplace brMatcher s12
  let s14 := scanReplace anyTagMatcher s13
  trimStr (scanReplace wsRunMatcher s14)

/-! ## Label removal and clipping -/

/-- Match `aspect\s*ratio` (case-insensitive) at the start of `v`,
returning the match length. -/
def labelTokMatchAt (v : Chars) : Option Nat :=
  if startsWithCI (chars "aspect") v then
    let a := countLeading isWs (v.drop 6)
    if startsWithCI (chars "ratio") (v.drop (6 + a)) then some (6 + a + 5)
    else none
  else none

/-- Match `aspect\s*ratio\s*` (with the trailing greedy `\s*`) at the
start of `v`, returning the match length. -/
def labelTrailMatchAt (v : Chars) : Option Nat :=
  match labelTokMatchAt v with
  | some l => some (l + countLeading isWs (v.drop l))
  | none => none

/-- `text.replace(/^[\s\S]*?aspect\s*ratio\s*/i, "")`: drop everything up
to and including the first occurrence of the label. -/
def stripUpToLabel (t : Chars) : Chars :=
  match (List.range (t.length + 1)).find? (fun j => (labelTrailMatchAt (t.drop j)).isSome) with
  | some j =>
    match labelTrailMatchAt (t.drop j) with
    | some len => t.drop (j + len)
    | none => t
  | none => t

/-- The "next field" label words of `parseRatiosFromBlock`'s clip regex. -/
def fieldWords : List Chars :=
  [chars "camera", chars "runtime", chars "sound mix", chars "color",
   chars "negative", chars "cinematographic", chars "printed",
   chars "laboratory", chars "film length", chars "contribute to this page"]

/-- Does `\b(Camera|…)\b` match at position `j` of `t`?  (The following
`[\s\S]*$` always succeeds.) -/
def fieldClipAt (t : Chars) (j : Nat) : Bool :=
  (decide (j = 0) || !isWordChar (t.getD (j - 1) ' ')) &&
    fieldWords.any (fun w =>
      startsWithCI w (t.drop j) &&
        match (t.drop (j + w.length)).head? with
        | none => true
        | some c => !isWordChar c)

/-- `.replace(/\b(Camera|Runtime|…)\b[\s\S]*$/i, "")`. -/
def fieldClip (t : Chars) : Chars :=
  match (List.range (t.length + 1)).find? (fieldClipAt t) with
  | some j => t.take j
  | none => t

def attrWords : List Chars := [chars "class", chars "role", chars "data-testid"]

/-- Does `\b(class|role|data-testid)\s*=` match at position `j` of `t`? -/
def attrClipAt (t : Chars) (j : Nat) : Bool :=
  (decide (j = 0) || !isWordChar (t.getD (j - 1) ' ')) &&
    attrWords.any (fun w =>
      startsWithCI w (t.drop j) &&
        match (t.drop (j + w.length)).dropWhile isWs with
        | '=' :: _ => true
        | _ => false)

/-- `.replace(/\b(class|role|data-testid)\s*=[\s\S]*$/i, "")`. -/
def attrClip (t : Chars) : Chars :=
  match (List.range (t.length + 1)).find? (attrClipAt t) with
  | some j => t.take j
  | none => t

/-! ## Segment splitting (paren-depth aware) -/

def isSepChar (c : Char) : Bool := c = '•' || c = '·' || c = '|' || c = ';'

/-- One step of the split loop of `parseRatiosFromBlock`: state is
(collected parts, current segment, paren depth).  The depth is updated
first, then a separator outside parentheses closes the current segment
(pushed trimmed when nonempty), exactly as in the source. -/
def splitStep (st : List Chars × Chars × Int) (c : Char) : List Chars × Chars × Int :=
  let parts := st.1
  let current := st.2.1
  let depth := st.2.2
  let depth' := if c = '(' then depth + 1 else if c = ')' then depth - 1 else depth
  if depth' = 0 && isSepChar c then
    (parts ++ (if trimStr current = [] then [] else [trimStr current]), [], depth')
  else
    (parts, current ++ [c], depth')

/-- The segment list produced from the cleaned text. -/
def splitSegs (t : Chars) : List Chars :=
  let st := t.foldl splitStep ([], [], 0)
  st.1 ++ (if trimStr st.2.1 = [] then [] else [trimStr st.2.1])

/-! ## Parsing a single segment -/

/-- A parsed ratio entry (`{ratio, raw, note}` of the source). -/
structure RatioEntry where
  ratio : Chars
  raw : Chars
  note : Option Chars
deriving DecidableEq, Repr

/-- The parenthetical note matcher `/^\s*\(([^)]+)\)/` applied to the text
after the matched ratio, followed by `.trim()` on the capture. -/
def noteOf (afterRatio : Chars) : Option Chars :=
  match afterRatio.dropWhile isWs with
  | '(' :: r =>
    let inner := r.takeWhile (fun c => c ≠ ')')
    if inner = [] then none
    else
      match r.dropWhile (fun c => c ≠ ')') with
      | ')' :: _ => some (trimStr inner)
      | _ => none
  | _ => none

/-- The textual alias branch of the segment loop: `academy`, then
`4\s*:?\s*3|\bfull\s*screen\b`, then `16\s*:?\s*9|hdtv|1\.78`, tested on
the lowercased segment. -/
def fourThreeAt (v : Chars) : Bool :=
  match v with
  | '4' :: r =>
    let r2 := r.dropWhile isWs
    let r3 := match r2 with
      | ':' :: t => t.dropWhile isWs
      | _ => r2
    match r3 with
    | '3' :: _ => true
    | _ => false
  | _ => false

def fullScreenAt (v : Chars) (j : Nat) : Bool :=
  (decide (j = 0) || !isWordChar (v.getD (j - 1) ' ')) &&
    (startsWithCI (chars "full") (v.drop j) &&
      (let r := (v.drop (j + 4)).dropWhile isWs
       startsWithCI (chars "screen") r &&
         match (r.drop 6).head? with
         | none => true
         | some c => !isWordChar c))

def sixteenNineAt (v : Chars) : Bool :=
  match v with
  | '1' :: '6' :: r =>
    let r2 := r.dropWhile isWs
    let r3 := match r2 with
      | ':' :: t => t.dropWhile isWs
      | _ => r2
    match r3 with
    | '9' :: _ => true
    | _ => false
  | _ => false

def testAnywhere (f : Chars → Bool) (v : Chars) : Bool :=
  (List.range (v.length + 1)).any (fun j => f (v.drop j))

def aliasOf (p : Chars) : Option RatioEntry :=
  let lowered := lowerStr p
  if (indexOfSub (chars "academy") lowered).isSome then
    some ⟨chars "1.37:1", chars "1.37:1", none⟩
  else if testAnywhere fourThreeAt lowered ||
      (List.range (lowered.length + 1)).any (fullScreenAt lowered) then
    some ⟨chars "1.33:1", chars "1.33:1", none⟩
  else if testAnywhere sixteenNineAt lowered ||
      (indexOfSub (chars "hdtv") lowered).isSome ||
      (indexOfSub (chars "1.78") lowered).isSome then
    some ⟨chars "1.78:1", chars "1.78:1", none⟩
  else none

/-- The body of the `for (const p of parts)` loop of
`parseRatiosFromBlock`: at most one entry per segment.  A matched numeric
token with a zero denominator or nonpositive numerator yields nothing (the
source `continue`s without reaching the alias tests). -/
def parsePart (p : Chars) : Option RatioEntry :=
  match firstRatioMatch p with
  | some (j, nc, dc, len) =>
    let num := parseDec nc
    let den := parseDec dc
    if den ≠ 0 ∧ 0 < num then
      let m0 := (p.drop j).take len
      let normalized := fmtRatio2 (jsRound (num / den * 100)).toNat
      let idx := (indexOfSub m0 p).getD 0
      let afterRatio := trimStr (p.drop (idx + m0.length))
      some ⟨normalized, m0.filter (fun c => !isWs c), noteOf afterRatio⟩
    else none
  | none => aliasOf p

/-- `parseRatiosFromBlock`: strip tags, cut at the label, clip trailing
fields and leaked attributes, split into segments, parse each segment. -/
def parseRatiosFromBlock (blockHtml : Chars) : List RatioEntry :=
  let text := stripTags blockHtml
  let afterLabel := stripUpToLabel text
  let clipped := trimStr (fieldClip afterLabel)
  let cleaned := trimStr (attrClip clipped)
  let parts := splitSegs cleaned
  parts.foldl (fun out p => out ++ (parsePart p).toList) []

/-! ## IEEE-754 binary64 rounding (the refinement used by claim C1)

The definitions above treat `parseFloat`, `Math.round((num/den)*100)` and
`toFixed(2)` over exact rationals.  The program computes in IEEE-754
binary64: `parseFloat` rounds the exact decimal value of its token to the
nearest double (ties to even), and each `/` and `*` likewise rounds its
exact result.  `f64` below implements that rounding for positive
arguments whose rounded value is a positive normal double (the range
singled out by `normalRange`); overflow to `Infinity` and subnormal
underflow are outside this model and excluded by the amended claim's
range hypotheses.  `toFixed(2)` in its fixed-notation regime (argument
below `10^21`) prints `n/100` for the integer `n` nearest to `100` times
the exact value of its double argument, the larger `n` on ties. -/

/-- Round to the nearest integer, ties to even (the IEEE-754 default
rounding, applied to significands). -/
def rne (q : ℚ) : ℤ :=
  let f := Int.floor q
  let r := q - (f : ℚ)
  if r < 1 / 2 then f
  else if 1 / 2 < r then f + 1
  else if f % 2 = 0 then f else f + 1

/-- Normalize a positive rational to `m * 2 ^ e` with `m ∈ [1, 2)`; the
fuel bound used at the call site (2200) covers the binary64 exponent
range, so on every input of interest the fixed point is reached. -/
def normF : Nat → ℚ → ℤ → ℚ × ℤ
  | 0, x, e => (x, e)
  | fuel + 1, x, e =>
    if x < 1 then normF fuel (x * 2) (e - 1)
    else if 2 ≤ x then normF fuel (x / 2) (e + 1)
    else (x, e)

/-- The binary64 (double-precision) rounding of a rational: 53 significand
bits, round to nearest, ties to even; exact at `0` and the identity on
every value already representable as a normal double. -/
def f64 (x : ℚ) : ℚ :=
  if x ≤ 0 then 0
  else
    let p := normF 2200 x 0
    let m : ℚ := (rne (p.1 * 2 ^ 52) : ℚ) / 2 ^ 52
    if 0 ≤ p.2 then m * 2 ^ p.2.toNat else m / 2 ^ (-p.2).toNat

/-- Binary64 multiplication: the exact product, rounded. -/
def fMul (a b : ℚ) : ℚ := f64 (a * b)

/-- Binary64 division: the exact quotient, rounded. -/
def fDiv (a b : ℚ) : ℚ := f64 (a / b)

/-- The positive normal binary64 range (`2^(-1022)` to `2^1023`): on
arguments in it, `f64` is exactly the IEEE-754 rounding and neither
overflow nor underflow to subnormals can occur. -/
def normalRange (x : ℚ) : Prop :=
  1 ≤ x * ((2 ^ 1022 : Nat) : ℚ) ∧ x ≤ ((2 ^ 1023 : Nat) : ℚ)

instance (x : ℚ) : Decidable (normalRange x) := by
  unfold normalRange
  infer_instance

/-- `(Math.round(p) / 100).toFixed(2)` computed on doubles: `k` is the
integer `Math.round(p)`, the division by 100 rounds to a double, and
`toFixed(2)` (fixed-notation regime) prints the two-decimal numeral of
the integer nearest to 100 times that double, the larger one on ties. -/
def toFixed2F64 (k : ℤ) : Chars :=
  fmtFixed2 (jsRound (fDiv (k : ℚ) 100 * 100)).toNat

/-- The segment-parser loop body of `parseRatiosFromBlock` with its
numeric steps in binary64: `num = parseFloat(m[1])` and
`den = parseFloat(m[2])` round the decimal token values to doubles, and
`(Math.round((num / den) * 100) / 100).toFixed(2)` rounds at each
arithmetic step; the scanning and the `raw` and `note` parts are those of
`parsePart`. -/
def parsePartF64 (p : Chars) : Option RatioEntry :=
  match firstRatioMatch p with
  | some (j, nc, dc, len) =>
    let num := f64 (parseDec nc)
    let den := f64 (parseDec dc)
    if den ≠ 0 ∧ 0 < num then
      let m0 := (p.drop j).take len
      let normalized := toFixed2F64 (jsRound (fMul (fDiv num den) 100)) ++ [':', '1']
      let idx := (indexOfSub m0 p).getD 0
      let afterRatio := trimStr (p.drop (idx + m0.length))
      some ⟨normalized, m0.filter (fun c => !isWs c), noteOf afterRatio⟩
    else none
  | none => aliasOf p

/-- `parseRatiosFromBlock` with the binary64 segment parser. -/
def parseRatiosFromBlockF64 (blockHtml : Chars) : List RatioEntry :=
  let text := stripTags blockHtml
  let afterLabel := stripUpToLabel text
  let clipped := trimStr (fieldClip afterLabel)
  let cleaned := trimStr (attrClip clipped)
  let parts := splitSegs cleaned
  parts.foldl (fun out p => out ++ (parsePartF64 p).toList) []

/-! ## Deduplication -/

/-- The loop of `uniqueRatios` with its seen-set (a JavaScript `Set` of
ratio strings; `!e.ratio` skips entries whose ratio is the empty string). -/
def uniqueRatiosGo (seen : List Chars) : List RatioEntry → List RatioEntry
  | [] => []
  | e :: es =>
    if e.ratio = [] then uniqueRatiosGo seen es
    else if e.ratio ∈ seen then uniqueRatiosGo seen es
    else e :: uniqueRatiosGo (e.ratio :: seen) es

def uniqueRatios (entries : List RatioEntry) : List RatioEntry :=
  uniqueRatiosGo [] entries

/-! ## Classification and scoring -/

/-- `ratioToNumber`: first ratio-pattern match of the string, `num/den`,
`null` when there is no match or the denominator is zero. -/
def ratioToNumber (v : Chars) : Option ℚ :=
  match firstRatioMatch v with
  | some (_, nc, dc, _) =>
    let num := parseDec nc
    let den := parseDec dc
    if den = 0 then none else some (num / den)
  | none => none

/-- The classification result (`{short, long}` of `mapRatioToType`). -/
structure FormatMapping where
  short : Option Chars
  long : Option Chars
deriving DecidableEq, Repr

/-- The tolerance test `within(t, d = 0.02)` of the source. -/
def within (val t : ℚ) : Bool := |val - t| ≤ 2 / 100

/-- `mapRatioToType`, the ordered if-chain of the source. -/
def mapRatioToType (v : Chars) : FormatMapping :=
  match ratioToNumber v with
  | none => ⟨none, none⟩
  | some val =>
    if within val 4 then ⟨some (chars "Polyvision"), some (chars "Polyvision")⟩
    else if within val (276 / 100) then
      ⟨some (chars "Ultra Panavision 70"), some (chars "Ultra Panavision 70, MGM Camera 65")⟩
    else if within val (259 / 100) then ⟨some (chars "Cinerama"), some (chars "Cinerama")⟩
    else if within val (24 / 10) || within val (239 / 100) || within val (235 / 100) then
      ⟨some (chars "Scope"), some (chars "Anamorphic widescreen, Scope")⟩
    else if within val (22 / 10) then
      ⟨some (chars "Todd-AO"), some (chars "Todd-AO, Super Panavision 70")⟩
    else if within val (211 / 100) then
      ⟨some (chars "IMAX 2.11:1"), some (chars "IMAX 2.11:1")⟩
    else if within val 2 then ⟨some (chars "Univisium"), some (chars "Univisium, 18:9")⟩
    else if within val (19 / 10) then
      ⟨some (chars "Digital IMAX"), some (chars "Digital IMAX")⟩
    else if within val (185 / 100) then
      ⟨some (chars "Widescreen"), some (chars "Widescreen (flat), Standard American Widescreen")⟩
    else if within val (178 / 100) || within val (16 / 9) then
      ⟨some (chars "16:9"), some (chars "16:9, HDTV, Widescreen TV")⟩
    else if within val (166 / 100) then
      ⟨some (chars "European Widescreen"), some (chars "5:3, European Widescreen")⟩
    else if within val (143 / 100) || within val (144 / 100) then
      ⟨some (chars "IMAX 70mm"), some (chars "IMAX (70mm), True IMAX")⟩
    else if within val (137 / 100) then
      ⟨some (chars "Academy Ratio"), some (chars "Academy Ratio, Academy Standard")⟩
    else if within val (133 / 100) || within val (4 / 3) then
      ⟨some (chars "4:3"), some (chars "4:3, Full screen, Standard ratio")⟩
    else if within val (119 / 100) then
      ⟨some (chars "Silent film"), some (chars "Silent film")⟩
    else ⟨none, none⟩

/-- `scoreForPrimary`, the ordered if-chain of the source. -/
def scoreForPrimary (v : Chars) : Nat :=
  match ratioToNumber v with
  | none => 0
  | some val =>
    if within val (24 / 10) || within val (239 / 100) || within val (235 / 100) then 100
    else if within val (185 / 100) then 95
    else if within val (22 / 10) then 90
    else if within val (19 / 10) then 85
    else if within val (211 / 100) then 83
    else if within val (178 / 100) then 80
    else if within val (166 / 100) then 70
    else if within val 2 then 60
    else if within val (143 / 100) || within val (144 / 100) then 50
    else if within val (276 / 100) then 45
    else if within val (259 / 100) then 43
    else if within val (137 / 100) then 40
    else if within val (133 / 100) then 35
    else if within val (119 / 100) then 30
    else if within val 4 then 25
    else 10

/-- The scanning loop of `choosePrimaryRatio`: replace the best candidate
only on a strictly greater score. -/
def choosePrimaryLoop (best : Chars) (bestScore : Nat) : List Chars → Chars
  | [] => best
  | r :: rs =>
    let s := scoreForPrimary r
    if bestScore < s then choosePrimaryLoop r s rs
    else choosePrimaryLoop best bestScore rs

/-- `choosePrimaryRatio`; the argument is `none` for a missing (`null` or
`undefined`) list, and the result is `none` for JavaScript `null`. -/
def choosePrimaryRatio (ratios : Option (List Chars)) : Option Chars :=
  match ratios with
  | none => none
  | some [] => none
  | some (r :: rs) => some (choosePrimaryLoop r (scoreForPrimary r) rs)

/-! ## Normalization of the chosen ratio text -/

/-- Matcher for `\s*:\s*` (replaced by `":"`). -/
def colonWsMatcher (v : Chars) : Option (Nat × Chars) :=
  let a := countLeading isWs v
  match v.drop a with
  | ':' :: t => some (a + 1 + countLeading isWs t, [':'])
  | _ => none

/-- The trailing-label words of `normalizeAspectRatioText`'s clip regex
(a different list from `fieldWords`). -/
def normWords : List Chars :=
  [chars "camera", chars "runtime", chars "sound mix", chars "color",
   chars "negative format", chars "cinematographic process",
   chars "printed film format"]

/-- Does `\s*(Camera|…)` match at position `j` of `t`?  (No `\b` in this
regex, and `.*$` always succeeds because the text has no newlines left.) -/
def normClipAt (t : Chars) (j : Nat) : Bool :=
  normWords.any (fun w => startsWithCI w ((t.drop j).dropWhile isWs))

/-- `.replace(/\s*(Camera|Runtime|…).*$/i, "")`. -/
def normClip (t : Chars) : Chars :=
  match (List.range (t.length + 1)).find? (normClipAt t) with
  | some j => t.take j
  | none => t

/-- `normalizeAspectRatioText`: `null` for a falsy input, otherwise trim,
collapse `\s*:\s*` to `:`, collapse whitespace runs, clip trailing field
labels, trim. -/
def normalizeAspectRatioText (text : Chars) : Option Chars :=
  if text = [] then none
  else
    some (trimStr (normClip (scanReplace wsRunMatcher
      (scanReplace colonWsMatcher (trimStr text)))))

/-! ## Block extraction (`findAspectRatioBlocks`) -/

/-- A quote character of the class `["']`. -/
def isQuote (c : Char) : Bool := c = '"' || c = Char.ofNat 39

/-- Match `data-testid=["']title-techspecs-aspectratio["']` at the start
of `v`, returning the length consumed (through the closing quote). -/
def testidAt (v : Chars) : Option Nat :=
  if startsWithCI (chars "data-testid=") v then
    match v.drop 12 with
    | q1 :: r2 =>
      if isQuote q1 && startsWithCI (chars "title-techspecs-aspectratio") r2 then
        match r2.drop 27 with
        | q2 :: _ => if isQuote q2 then some (12 + 1 + 27 + 1) else none
        | [] => none
      else none
    | [] => none
  else none

/-- Lazy search for the `data-testid` attribute inside `[^>]*?`: starting
just after `<div`, try the attribute pattern at each position, advancing
only while the current character is not `>`; returns the offset of the
position past the closing quote. -/
def findTestid : Chars → Option Nat
  | [] => none
  | c :: cs =>
    match testidAt (c :: cs) with
    | some l => some l
    | none => if c = '>' then none else (findTestid cs).map (· + 1)

/-- Leftmost `aspect\s*ratio` token in `v`, with its length. -/
def findLabelTok (v : Chars) : Option (Nat × Nat) :=
  match (List.range (v.length + 1)).find? (fun j => (labelTokMatchAt (v.drop j)).isSome) with
  | some j =>
    match labelTokMatchAt (v.drop j) with
    | some l => some (j, l)
    | none => none
  | none => none

/-- Match `<tr[\s\S]*?>[\s\S]*?Aspect\s*ratio[\s\S]*?<\/tr>` (and the
`li`/`section` variants) at the start of `v`.  Lazy pieces resolve to the
nearest `>`, the nearest label token after it, and the nearest closing
literal after that; when one of the nearest-searches fails no backtracking
into an earlier lazy piece can succeed (later choices only shrink the
remaining search space), so the position fails. -/
def containerMatchAt (open_ close : Chars) (v : Chars) : Option Nat :=
  if startsWithCI open_ v then
    match indexOfSub ['>'] (v.drop open_.length) with
    | some g =>
      let base := open_.length + g + 1
      match findLabelTok (v.drop base) with
      | some (j, l) =>
        match indexOfCI close (v.drop (base + j + l)) with
        | some cj => some (base + j + l + cj + close.length)
        | none => none
      | none => none
    | none => none
  else none

/-- Match `<div[^>]*?data-testid=["']title-techspecs-aspectratio["'][\s\S]*?<\/div>`
at the start of `v`. -/
def divMatchAt (v : Chars) : Option Nat :=
  if startsWithCI (chars "<div") v then
    match findTestid (v.drop 4) with
    | some l =>
      match indexOfCI (chars "</div>") (v.drop (4 + l)) with
      | some cj => some (4 + l + cj + 6)
      | none => none
    | none => none
  else none

/-- The `<script>`/`<style>` stripping that opens `findAspectRatioBlocks`
(and `parseAllAspectRatiosFromImdb`). -/
def stripScriptStyle (html : Chars) : Chars :=
  scanReplace (enclosedMatcher (chars "<style") (chars "</style>"))
    (scanReplace (enclosedMatcher (chars "<script") (chars "</script>")) html)

/-- The `blocks` array after the pattern loop of `findAspectRatioBlocks`:
every match of every structural pattern, in pattern order (the loop pushes
all matches of each regex in turn, never stopping at the first pattern
that matches). -/
def structuralBlocks (cleaned : Chars) : List Chars :=
  collectMatches (containerMatchAt (chars "<tr") (chars "</tr>")) cleaned ++
  collectMatches (containerMatchAt (chars "<li") (chars "</li>")) cleaned ++
  collectMatches divMatchAt cleaned ++
  collectMatches (containerMatchAt (chars "<section") (chars "</section>")) cleaned

/-- `findAspectRatioBlocks`: every match of every structural pattern, in
pattern order; if none matched, a text window `[idx-200, idx+800)` around
the first plain-text occurrence of "aspect ratio" (case-insensitively, via
`toLowerCase` and `indexOf`); empty if the label never occurs. -/
def findAspectRatioBlocks (html : Chars) : List Chars :=
  let cleaned := stripScriptStyle html
  let blocks := structuralBlocks cleaned
  if blocks = [] then
    match indexOfSub (chars "aspect ratio") (lowerStr cleaned) with
    | some idx => [(cleaned.drop (idx - 200)).take (idx + 800 - (idx - 200))]
    | none => []
  else blocks

/-! ## The record builder (the pure tail of `fetchImdbAspectRatio`) -/

/-- `parseAllAspectRatiosFromImdb` of the multi-ratio extractor. -/
def parseAllAspectRatiosFromImdb (html : Chars) : List Chars :=
  (uniqueRatios ((findAspectRatioBlocks html).flatMap parseRatiosFromBlock)).map
    (fun e => e.ratio)

/-- The result record assembled by `fetchImdbAspectRatio` (the
`fetchedAt` stamp is added later by the message handler and is not part
of this pure computation). -/
structure AspectRatioResult where
  aspectRatio : Option Chars
  displayText : Chars
  allAspectRatios : List Chars
  mappedTypeShort : Option Chars
  mappedTypeLong : Option Chars
  source : Chars
  sourceUrl : Chars
deriving DecidableEq, Repr

def joinSep (sep : Chars) : List Chars → Chars
  | [] => []
  | [x] => x
  | x :: xs => x ++ sep ++ joinSep sep xs

/-- `choosePrimaryRatio(list) || list[0]` of the record builder: the
JavaScript `||` falls through on `null` and on the empty string. -/
def primaryOf (list : List Chars) : Chars :=
  match choosePrimaryRatio (some list) with
  | some p => if p = [] then list.headD [] else p
  | none => list.headD []

/-- One display part: `r (long)` when the classifier has a long name. -/
def displayPartOf (r : Chars) : Chars :=
  match (mapRatioToType r).long with
  | some l => r ++ chars " (" ++ l ++ chars ")"
  | none => r

/-- The pure tail of `fetchImdbAspectRatio`, from the fetched document to
the result record or the thrown error message. -/
def fetchImdbAspectRatioCore (imdbId html : Chars) : Except Chars AspectRatioResult :=
  let list := parseAllAspectRatiosFromImdb html
  if list = [] then Except.error (chars "Aspect ratio not found on IMDb")
  else
    let primary := primaryOf list
    let aspectRatio := normalizeAspectRatioText primary
    let displayText := joinSep (chars " • ") (list.map displayPartOf)
    let typeMap :=
      match aspectRatio with
      | some a => mapRatioToType a
      | none => ⟨none, none⟩
    Except.ok
      { aspectRatio := aspectRatio
        displayText := displayText
        allAspectRatios := list
        mappedTypeShort := typeMap.short
        mappedTypeLong := typeMap.long
        source := chars "imdb"
        sourceUrl := chars "https://www.imdb.com/title/" ++ imdbId ++ chars "/technical/" }

/-! ## Specification-side definitions

These definitions follow the words of the specification / claims, to be
compared with the source-derived functions above. -/

deriving instance DecidableEq for Except

/-- A well-formed decimal number token `N[.N]`: a nonempty integer digit
run and an optional nonempty fractional digit run (`[]` = absent). -/
structure NumTok where
  ip : Chars
  fp : Chars
deriving DecidableEq, Repr

def NumTok.wf (t : NumTok) : Prop :=
  t.ip ≠ [] ∧ (∀ c ∈ t.ip, Char.isDigit c) ∧ (∀ c ∈ t.fp, Char.isDigit c)

/-- The text of the token. -/
def NumTok.render (t : NumTok) : Chars :=
  t.ip ++ (if t.fp = [] then [] else '.' :: t.fp)

/-- The numeric value of the token (what `parseFloat` yields on it). -/
def NumTok.val (t : NumTok) : ℚ := parseDec t.render

/-- The claim's canonical output: `N/D` rounded to exactly two decimal
places, followed by `:1` (`round` is Mathlib's round-half-up). -/
def specCanonicalRatio (q : ℚ) : Chars := fmtRatio2 (round (q * 100)).toNat

/-- The classification table of the specification: ordered entries of
target values (several per row where the spec groups them), a tolerance of
0.02, and the short/long names; the first matching row wins. -/
def specClassifyTable : List (List ℚ × Chars × Chars) :=
  [([4], chars "Polyvision", chars "Polyvision"),
   ([276 / 100], chars "Ultra Panavision 70", chars "Ultra Panavision 70, MGM Camera 65"),
   ([259 / 100], chars "Cinerama", chars "Cinerama"),
   ([24 / 10, 239 / 100, 235 / 100], chars "Scope", chars "Anamorphic widescreen, Scope"),
   ([22 / 10], chars "Todd-AO", chars "Todd-AO, Super Panavision 70"),
   ([211 / 100], chars "IMAX 2.11:1", chars "IMAX 2.11:1"),
   ([2], chars "Univisium", chars "Univisium, 18:9"),
   ([19 / 10], chars "Digital IMAX", chars "Digital IMAX"),
   ([185 / 100], chars "Widescreen", chars "Widescreen (flat), Standard American Widescreen"),
   ([178 / 100, 16 / 9], chars "16:9", chars "16:9, HDTV, Widescreen TV"),
   ([166 / 100], chars "European Widescreen", chars "5:3, European Widescreen"),
   ([143 / 100, 144 / 100], chars "IMAX 70mm", chars "IMAX (70mm), True IMAX"),
   ([137 / 100], chars "Academy Ratio", chars "Academy Ratio, Academy Standard"),
   ([133 / 100, 4 / 3], chars "4:3", chars "4:3, Full screen, Standard ratio"),
   ([119 / 100], chars "Silent film", chars "Silent film")]

/-- Classification by the first matching row of the ordered table, both
names `null` when the value parses to nothing or no row matches. -/
def specClassify (v : Chars) : FormatMapping :=
  match ratioToNumber v with
  | none => ⟨none, none⟩
  | some val =>
    match specClassifyTable.find? (fun row => row.1.any (fun t => within val t)) with
    | some row => ⟨some row.2.1, some row.2.2⟩
    | none => ⟨none, none⟩

/-- The preference table of the primary-ratio selector, in match order. -/
def specScoreTable : List (List ℚ × Nat) :=
  [([24 / 10, 239 / 100, 235 / 100], 100), ([185 / 100], 95), ([22 / 10], 90),
   ([19 / 10], 85), ([211 / 100], 83), ([178 / 100], 80), ([166 / 100], 70),
   ([2], 60), ([143 / 100, 144 / 100], 50), ([276 / 100], 45), ([259 / 100], 43),
   ([137 / 100], 40), ([133 / 100], 35), ([119 / 100], 30), ([4], 25)]

/-- Score by the first matching row of the preference table, `10`
otherwise (and `0` when the value is unparseable). -/
def specScore (v : Chars) : Nat :=
  match ratioToNumber v with
  | none => 0
  | some val =>
    match specScoreTable.find? (fun row => row.1.any (fun t => within val t)) with
    | some row => row.2
    | none => 10

def specDedupeF : Nat → List RatioEntry → List RatioEntry
  | 0, _ => []
  | _ + 1, [] => []
  | fuel + 1, e :: es =>
    e :: specDedupeF fuel (es.filter (fun x => x.ratio ≠ e.ratio))

/-- First-occurrence deduplication as the specification words it: keep
the first entry, drop every later entry with the same ratio value, and
continue (the fuel argument is only a structural-recursion device). -/
def specDedupe (l : List RatioEntry) : List RatioEntry := specDedupeF l.length l

/-- The fallback of the block extractor as the claim words it: the window
from 200 characters before to 800 characters after the first
case-insensitive occurrence of "aspect ratio", empty when absent. -/
def fallbackWindowSpec (cl : Chars) : List Chars :=
  match indexOfCI (chars "aspect ratio") cl with
  | some idx => [(cl.drop (idx - 200)).take (idx + 800 - (idx - 200))]
  | none => []

/-- Is there an `aspect\s*ratio` (case-insensitive) occurrence anywhere? -/
def occursLabelTok (cl : Chars) : Bool :=
  (List.range cl.length).any (fun j => (labelTokMatchAt (cl.drop j)).isSome)

/-- The characters that can occur in a canonical ratio string: decimal
digits, the dot and the colon. -/
def isPlainChar (c : Char) : Bool := c.isDigit || c = '.' || c = ':'

/-! # Proofs -/

/-! ## Character-class and scanning lemmas -/

theorem isWs_lowerChar (c : Char) : isWs (lowerChar c) = isWs c := by
  unfold lowerChar; split <;> rfl

theorem not_ws_of_digit {c : Char} (h : c.isDigit = true) : isWs c = false := by
  cases hw : isWs c with
  | false => rfl
  | true =>
    simp only [isWs, Bool.or_eq_true, decide_eq_true_eq] at hw
    rcases hw with ((((rfl | rfl) | rfl) | rfl) | rfl) | rfl <;> exact absurd h (by decide)

theorem takeWhile_append_all {α : Type} {p : α → Bool} {l : List α} (r : List α)
    (h : ∀ a ∈ l, p a = true) : (l ++ r).takeWhile p = l ++ r.takeWhile p := by
  induction l with
  | nil => rfl
  | cons a l ih =>
    have ha := h a (List.mem_cons_self a l)
    have ih2 := ih (fun x hx => h x (List.mem_cons_of_mem a hx))
    simp [List.takeWhile_cons, ha, ih2]

theorem dropWhile_append_all {α : Type} {p : α → Bool} {l : List α} (r : List α)
    (h : ∀ a ∈ l, p a = true) : (l ++ r).dropWhile p = r.dropWhile p := by
  induction l with
  | nil => rfl
  | cons a l ih =>
    have ha := h a (List.mem_cons_self a l)
    have ih2 := ih (fun x hx => h x (List.mem_cons_of_mem a hx))
    simp [List.dropWhile_cons, ha, ih2]

theorem takeWhile_eq_nil_of_head {α : Type} {p : α → Bool} {l : List α}
    (h : ∀ a, l.head? = some a → p a = false) : l.takeWhile p = [] := by
  cases l with
  | nil => rfl
  | cons a t => simp [List.takeWhile_cons, h a rfl]

theorem dropWhile_eq_self_of_head {α : Type} {p : α → Bool} {l : List α}
    (h : ∀ a, l.head? = some a → p a = false) : l.dropWhile p = l := by
  cases l with
  | nil => rfl
  | cons a t => simp [List.dropWhile_cons, h a rfl]

/-- Claim C2 (explicit): on the input fragment "Aspect ratio 1.85 : 1 (Flat)"
`parseRatiosFromBlock` returns exactly one entry, with ratio "1.85:1" and
note "Flat" — the parenthetical immediately after the matched ratio is
captured as the entry's note. -/
theorem claim_C2 :
    parseRatiosFromBlock (chars "Aspect ratio 1.85 : 1 (Flat)") =
      [{ ratio := chars "1.85:1", raw := chars "1.85:1", note := some (chars "Flat") }] := by
  decide

/-! ## The segment loop as a `filterMap` (claims C7 and C9) -/

theorem foldl_append_toList {α β : Type} (f : α → Option β) :
    ∀ (l : List α) (acc : List β),
      l.foldl (fun out p => out ++ (f p).toList) acc = acc ++ l.filterMap f
  | [], acc => by simp
  | a :: l, acc => by
    simp only [List.foldl_cons, List.filterMap_cons]
    rw [foldl_append_toList f l]
    cases h : f a <;> simp

/-- The push-loop over segments is a `filterMap` of the per-segment
parser over the segment list. -/
theorem parseRatiosFromBlock_eq_filterMap (blockHtml : Chars) :
    parseRatiosFromBlock blockHtml =
      (splitSegs (trimStr (attrClip (trimStr (fieldClip
        (stripUpToLabel (stripTags blockHtml))))))).filterMap parsePart := by
  unfold parseRatiosFromBlock
  rw [foldl_append_toList]
  simp

/-- Claim C9 (explicit): a matched numeric ratio token with a zero
denominator or nonpositive numerator never yields an entry — it is
silently dropped by the segment parser, not an error — and the block
parser still parses every other segment of the same block independently
(it is a `filterMap` of the segment parser over the segment list); on the
block "Aspect ratio 2.39:0 • 1.85:1" only the valid token survives. -/
theorem claim_C9 :
    (∀ p j nc dc len, firstRatioMatch p = some (j, nc, dc, len) →
      (parseDec dc = 0 ∨ parseDec nc ≤ 0) → parsePart p = none) ∧
    (∀ blockHtml, parseRatiosFromBlock blockHtml =
      (splitSegs (trimStr (attrClip (trimStr (fieldClip
        (stripUpToLabel (stripTags blockHtml))))))).filterMap parsePart) ∧
    parseRatiosFromBlock (chars "Aspect ratio 2.39:0 • 1.85:1") =
      [{ ratio := chars "1.85:1", raw := chars "1.85:1", note := none }] := by
  refine ⟨?_, parseRatiosFromBlock_eq_filterMap, by decide⟩
  intro p j nc dc len h hbad
  unfold parsePart
  rw [h]
  have : ¬(parseDec dc ≠ 0 ∧ 0 < parseDec nc) := by
    rintro ⟨h1, h2⟩
    rcases hbad with h3 | h3
    · exact h1 h3
    · exact absurd h2 (not_lt.mpr h3)
  simp only [this, if_false]

theorem claim_C9_witness :
    parsePart (chars "2.39:0") = none ∧
      parseRatiosFromBlock (chars "Aspect ratio 2.39:0 • 1.85:1") =
        (splitSegs (trimStr (attrClip (trimStr (fieldClip (stripUpToLabel
          (stripTags (chars "Aspect ratio 2.39:0 • 1.85:1")))))))).filterMap parsePart :=
  ⟨claim_C9.1 (chars "2.39:0") 0 (chars "2.39") (chars "0") 6 (by decide)
      (Or.inl (by decide)),
    claim_C9.2.1 (chars "Aspect ratio 2.39:0 • 1.85:1")⟩

/-! ## Deduplication lemmas (claims C5 and C7) -/

theorem mem_uniqueRatiosGo {e : RatioEntry} :
    ∀ {es : List RatioEntry} {seen : List Chars}, e ∈ uniqueRatiosGo seen es →
      e ∈ es ∧ e.ratio ≠ [] ∧ e.ratio ∉ seen
  | [], _, h => by simp [uniqueRatiosGo] at h
  | x :: es, seen, h => by
    unfold uniqueRatiosGo at h
    by_cases h1 : x.ratio = []
    · rw [if_pos h1] at h
      obtain ⟨a, b, c⟩ := mem_uniqueRatiosGo h
      exact ⟨List.mem_cons_of_mem x a, b, c⟩
    rw [if_neg h1] at h
    by_cases h2 : x.ratio ∈ seen
    · rw [if_pos h2] at h
      obtain ⟨a, b, c⟩ := mem_uniqueRatiosGo h
      exact ⟨List.mem_cons_of_mem x a, b, c⟩
    rw [if_neg h2] at h
    rcases List.mem_cons.mp h with rfl | h3
    · exact ⟨List.mem_cons_self _ _, h1, h2⟩
    obtain ⟨a, b, c⟩ := mem_uniqueRatiosGo h3
    exact ⟨List.mem_cons_of_mem x a, b, fun hc => c (List.mem_cons_of_mem _ hc)⟩

theorem nodup_map_uniqueRatiosGo :
    ∀ (es : List RatioEntry) (seen : List Chars),
      ((uniqueRatiosGo seen es).map RatioEntry.ratio).Nodup
  | [], _ => by simp [uniqueRatiosGo]
  | x :: es, seen => by
    unfold uniqueRatiosGo
    by_cases h1 : x.ratio = []
    · rw [if_pos h1]; exact nodup_map_uniqueRatiosGo es seen
    rw [if_neg h1]
    by_cases h2 : x.ratio ∈ seen
    · rw [if_pos h2]; exact nodup_map_uniqueRatiosGo es seen
    rw [if_neg h2]
    simp only [List.map_cons, List.nodup_cons]
    refine ⟨?_, nodup_map_uniqueRatiosGo es (x.ratio :: seen)⟩
    intro hc
    obtain ⟨y, hy, hyr⟩ := List.mem_map.mp hc
    exact (mem_uniqueRatiosGo hy).2.2 (by rw [hyr]; exact List.mem_cons_self _ _)

theorem uniqueRatiosGo_id :
    ∀ (l : List RatioEntry) (seen : List Chars),
      (∀ e ∈ l, e.ratio ≠ [] ∧ e.ratio ∉ seen) → (l.map RatioEntry.ratio).Nodup →
      uniqueRatiosGo seen l = l
  | [], _, _, _ => rfl
  | x :: l, seen, h, hn => by
    obtain ⟨h1, h2⟩ := h x (List.mem_cons_self x l)
    unfold uniqueRatiosGo
    rw [if_neg h1, if_neg h2]
    simp only [List.map_cons, List.nodup_cons] at hn
    refine congrArg (x :: ·) (uniqueRatiosGo_id l (x.ratio :: seen) ?_ hn.2)
    intro e he
    obtain ⟨e1, e2⟩ := h e (List.mem_cons_of_mem x he)
    refine ⟨e1, ?_⟩
    intro hc
    rcases List.mem_cons.mp hc with hc | hc
    · exact hn.1 (hc ▸ List.mem_map_of_mem RatioEntry.ratio he)
    · exact e2 hc

theorem uniqueRatios_idem (x : List RatioEntry) :
    uniqueRatios (uniqueRatios x) = uniqueRatios x := by
  unfold uniqueRatios
  refine uniqueRatiosGo_id _ [] ?_ (nodup_map_uniqueRatiosGo x [])
  intro e he
  exact ⟨(mem_uniqueRatiosGo he).2.1, List.not_mem_nil e.ratio⟩

theorem uniqueRatiosGo_eq_specDedupeF :
    ∀ (es : List RatioEntry) (seen : List Chars) (fuel : Nat),
      es.length ≤ fuel → (∀ e ∈ es, e.ratio ≠ []) →
      uniqueRatiosGo seen es =
        specDedupeF fuel (es.filter (fun e => decide (e.ratio ∉ seen)))
  | [], _, fuel, _, _ => by cases fuel <;> rfl
  | x :: es, seen, fuel, hf, h => by
    have hx := h x (List.mem_cons_self x es)
    have hes := fun e he => h e (List.mem_cons_of_mem x he)
    obtain ⟨k, rfl⟩ : ∃ k, fuel = k + 1 := by
      cases fuel with
      | zero => simp at hf
      | succ k => exact ⟨k, rfl⟩
    unfold uniqueRatiosGo
    rw [if_neg hx]
    by_cases h2 : x.ratio ∈ seen
    · rw [if_pos h2]
      rw [List.filter_cons_of_neg (by simpa using h2)]
      exact uniqueRatiosGo_eq_specDedupeF es seen (k + 1)
        (le_trans (Nat.le_succ _) hf) hes
    rw [if_neg h2]
    rw [List.filter_cons_of_pos (by simpa using h2)]
    unfold specDedupeF
    rw [List.filter_filter]
    rw [uniqueRatiosGo_eq_specDedupeF es (x.ratio :: seen) k (Nat.succ_le_succ_iff.mp hf) hes]
    refine congrArg (x :: ·) (congrArg (specDedupeF k) (List.filter_congr ?_))
    intro e _
    simp [List.mem_cons, not_or]

/-- Claim C5 (algebraic): `uniqueRatios` is idempotent on every entry
list, and on lists of well-formed entries (nonempty ratio strings, as the
data model guarantees) it equals the specification's stable
first-occurrence filter: the first entry of each distinct ratio value is
kept with its own raw and note, insertion order is preserved, and every
later entry with an already-seen ratio value is dropped entirely. -/
theorem claim_C5 :
    (∀ x : List RatioEntry, uniqueRatios (uniqueRatios x) = uniqueRatios x) ∧
    (∀ x : List RatioEntry, (∀ e ∈ x, e.ratio ≠ []) →
      uniqueRatios x = specDedupe x) := by
  refine ⟨uniqueRatios_idem, ?_⟩
  intro x h
  unfold uniqueRatios specDedupe
  rw [uniqueRatiosGo_eq_specDedupeF x [] x.length le_rfl h]
  refine congrArg (specDedupeF x.length) ?_
  refine List.filter_eq_self.mpr ?_
  intro e _
  simp

theorem claim_C5_witness :
    uniqueRatios
      [{ ratio := chars "1.37:1", raw := chars "1.37 : 1", note := none },
       { ratio := chars "1.37:1", raw := chars "1.37:1", note := some (chars "alt source") },
       { ratio := chars "2.39:1", raw := chars "2.39:1", note := none }] =
    specDedupe
      [{ ratio := chars "1.37:1", raw := chars "1.37 : 1", note := none },
       { ratio := chars "1.37:1", raw := chars "1.37:1", note := some (chars "alt source") },
       { ratio := chars "2.39:1", raw := chars "2.39:1", note := none }] :=
  claim_C5.2
    [{ ratio := chars "1.37:1", raw := chars "1.37 : 1", note := none },
     { ratio := chars "1.37:1", raw := chars "1.37:1", note := some (chars "alt source") },
     { ratio := chars "2.39:1", raw := chars "2.39:1", note := none }]
    (by decide)

/-! ## Primary-selector lemmas (claims C4, C7 and C10) -/

theorem choosePrimaryLoop_mem :
    ∀ (l : List Chars) (best : Chars) (sc : Nat),
      choosePrimaryLoop best sc l = best ∨ choosePrimaryLoop best sc l ∈ l
  | [], _, _ => Or.inl rfl
  | r :: rs, best, sc => by
    simp only [choosePrimaryLoop]
    by_cases h : sc < scoreForPrimary r
    · rw [if_pos h]
      rcases choosePrimaryLoop_mem rs r (scoreForPrimary r) with h2 | h2
      · exact Or.inr (by rw [h2]; exact List.mem_cons_self _ _)
      · exact Or.inr (List.mem_cons_of_mem _ h2)
    · rw [if_neg h]
      rcases choosePrimaryLoop_mem rs best sc with h2 | h2
      · exact Or.inl h2
      · exact Or.inr (List.mem_cons_of_mem _ h2)

theorem choosePrimaryLoop_le :
    ∀ (l : List Chars) (best : Chars),
      scoreForPrimary best ≤
        scoreForPrimary (choosePrimaryLoop best (scoreForPrimary best) l) ∧
      ∀ y ∈ l, scoreForPrimary y ≤
        scoreForPrimary (choosePrimaryLoop best (scoreForPrimary best) l)
  | [], best => by simp [choosePrimaryLoop]
  | r :: rs, best => by
    simp only [choosePrimaryLoop]
    by_cases h : scoreForPrimary best < scoreForPrimary r
    · rw [if_pos h]
      obtain ⟨a, b⟩ := choosePrimaryLoop_le rs r
      refine ⟨le_trans (le_of_lt h) a, ?_⟩
      intro y hy
      rcases List.mem_cons.mp hy with rfl | hy
      · exact a
      · exact b y hy
    · rw [if_neg h]
      obtain ⟨a, b⟩ := choosePrimaryLoop_le rs best
      refine ⟨a, ?_⟩
      intro y hy
      rcases List.mem_cons.mp hy with rfl | hy
      · exact le_trans (not_lt.mp h) a
      · exact b y hy

theorem choosePrimaryLoop_find? :
    ∀ (l : List Chars) (best : Chars),
      (best :: l).find? (fun y => scoreForPrimary y ==
          scoreForPrimary (choosePrimaryLoop best (scoreForPrimary best) l)) =
        some (choosePrimaryLoop best (scoreForPrimary best) l)
  | [], best => by simp [choosePrimaryLoop, List.find?]
  | r :: rs, best => by
    simp only [choosePrimaryLoop]
    by_cases h : scoreForPrimary best < scoreForPrimary r
    · rw [if_pos h]
      have ih := choosePrimaryLoop_find? rs r
      have hle := (choosePrimaryLoop_le rs r).1
      have hb : (scoreForPrimary best ==
          scoreForPrimary (choosePrimaryLoop r (scoreForPrimary r) rs)) = false := by
        simp only [beq_eq_false_iff_ne, ne_eq]
        omega
      rw [List.find?_cons, hb]
      exact ih
    · rw [if_neg h]
      have ih := choosePrimaryLoop_find? rs best
      have hle := (choosePrimaryLoop_le rs best).1
      by_cases hb : (scoreForPrimary best ==
          scoreForPrimary (choosePrimaryLoop best (scoreForPrimary best) rs)) = true
      · have hbest : choosePrimaryLoop best (scoreForPrimary best) rs = best := by
          rw [List.find?_cons, hb] at ih
          exact (Option.some.injEq _ _ ▸ ih :
            best = choosePrimaryLoop best (scoreForPrimary best) rs).symm
        rw [List.find?_cons]
        rw [hbest] at hb ⊢
        rw [hb]
      · have hbf : (scoreForPrimary best ==
            scoreForPrimary (choosePrimaryLoop best (scoreForPrimary best) rs)) = false :=
          Bool.not_eq_true _ ▸ (by simpa using hb)
        have hrf : (scoreForPrimary r ==
            scoreForPrimary (choosePrimaryLoop best (scoreForPrimary best) rs)) = false := by
          simp only [beq_eq_false_iff_ne, ne_eq] at hbf ⊢
          have hr : scoreForPrimary r ≤ scoreForPrimary best := not_lt.mp h
          omega
        rw [List.find?_cons, hbf] at ih
        rw [List.find?_cons, hbf, List.find?_cons, hrf]
        exact ih

/-- The if-chain of `scoreForPrimary` computes exactly the first-match
lookup in the ordered preference table of the specification. -/
theorem scoreForPrimary_eq_specScore (v : Chars) : scoreForPrimary v = specScore v := by
  unfold scoreForPrimary specScore
  cases h : ratioToNumber v with
  | none => rfl
  | some val =>
    simp only [specScoreTable, List.find?_cons, List.any_cons, List.any_nil, Bool.or_false, Bool.or_assoc]
    cases h0 : (within val (24 / 10) || (within val (239 / 100) || within val (235 / 100))) with
    | true => rfl
    | false =>
      cases h1 : (within val (185 / 100)) with
      | true => rfl
      | false =>
        cases h2 : (within val (22 / 10)) with
        | true => rfl
        | false =>
          cases h3 : (within val (19 / 10)) with
          | true => rfl
          | false =>
            cases h4 : (within val (211 / 100)) with
            | true => rfl
            | false =>
              cases h5 : (within val (178 / 100)) with
              | true => rfl
              | false =>
                cases h6 : (within val (166 / 100)) with
                | true => rfl
                | false =>
                  cases h7 : (within val 2) with
                  | true => rfl
                  | false =>
                    cases h8 : (within val (143 / 100) || within val (144 / 100)) with
                    | true => rfl
                    | false =>
                      cases h9 : (within val (276 / 100)) with
                      | true => rfl
                      | false =>
                        cases h10 : (within val (259 / 100)) with
                        | true => rfl
                        | false =>
                          cases h11 : (within val (137 / 100)) with
                          | true => rfl
                          | false =>
                            cases h12 : (within val (133 / 100)) with
                            | true => rfl
                            | false =>
                              cases h13 : (within val (119 / 100)) with
                              | true => rfl
                              | false =>
                                cases h14 : (within val 4) with
                                | true => rfl
                                | false =>
                                  rfl

/-- The if-chain of `mapRatioToType` computes exactly the first-match
lookup in the ordered classification table of the specification. -/
theorem mapRatioToType_eq_specClassify (v : Chars) : mapRatioToType v = specClassify v := by
  unfold mapRatioToType specClassify
  cases h : ratioToNumber v with
  | none => rfl
  | some val =>
    simp only [specClassifyTable, List.find?_cons, List.any_cons, List.any_nil, Bool.or_false, Bool.or_assoc]
    cases h0 : (within val 4) with
    | true => rfl
    | false =>
      cases h1 : (within val (276 / 100)) with
      | true => rfl
      | false =>
        cases h2 : (within val (259 / 100)) with
        | true => rfl
        | false =>
          cases h3 : (within val (24 / 10) || (within val (239 / 100) || within val (235 / 100))) with
          | true => rfl
          | false =>
            cases h4 : (within val (22 / 10)) with
            | true => rfl
            | false =>
              cases h5 : (within val (211 / 100)) with
              | true => rfl
              | false =>
                cases h6 : (within val 2) with
                | true => rfl
                | false =>
                  cases h7 : (within val (19 / 10)) with
                  | true => rfl
                  | false =>
                    cases h8 : (within val (185 / 100)) with
                    | true => rfl
                    | false =>
                      cases h9 : (within val (178 / 100) || within val (16 / 9)) with
                      | true => rfl
                      | false =>
                        cases h10 : (within val (166 / 100)) with
                        | true => rfl
                        | false =>
                          cases h11 : (within val (143 / 100) || within val (144 / 100)) with
                          | true => rfl
                          | false =>
                            cases h12 : (within val (137 / 100)) with
                            | true => rfl
                            | false =>
                              cases h13 : (within val (133 / 100) || within val (4 / 3)) with
                              | true => rfl
                              | false =>
                                cases h14 : (within val (119 / 100)) with
                                | true => rfl
                                | false =>
                                  rfl

/-- Claim C3 (explicit): `mapRatioToType` is total and deterministic (a
Lean function), equals the first-matching-row lookup in the spec's fixed
ordered table with tolerance 0.02 per entry, and always returns either a
non-null short+long pair or a null+null pair: both fields are null
exactly together (when no entry matches or the input is unparseable). -/
theorem claim_C3 :
    (∀ v : Chars, mapRatioToType v = specClassify v) ∧
    (∀ v : Chars, ((mapRatioToType v).short = none ↔ (mapRatioToType v).long = none)) := by
  refine ⟨mapRatioToType_eq_specClassify, ?_⟩
  intro v
  rw [mapRatioToType_eq_specClassify]
  unfold specClassify
  cases ratioToNumber v with
  | none => simp
  | some val =>
    cases h2 : List.find? (fun row => row.1.any fun t => within val t) specClassifyTable <;>
      simp [h2]

/-- Claim C4 (explicit): the selector's score function is exactly the
fixed preference table (Scope family 100, 1.85 95, …, else 10); on every
nonempty list `choosePrimaryRatio` returns an element of the list that
has the maximal score and is the earliest candidate attaining that score
(strict `>` comparison keeps the earliest on ties); on
["1.33:1","2.39:1"] it returns "2.39:1" with scores 35 and 100. -/
theorem claim_C4 :
    (∀ v : Chars, scoreForPrimary v = specScore v) ∧
    (∀ l : List Chars, l ≠ [] → ∃ r, choosePrimaryRatio (some l) = some r ∧ r ∈ l ∧
      (∀ y ∈ l, scoreForPrimary y ≤ scoreForPrimary r) ∧
      l.find? (fun y => scoreForPrimary y == scoreForPrimary r) = some r) ∧
    choosePrimaryRatio (some [chars "1.33:1", chars "2.39:1"]) = some (chars "2.39:1") ∧
    scoreForPrimary (chars "1.33:1") = 35 ∧
    scoreForPrimary (chars "2.39:1") = 100 := by
  refine ⟨scoreForPrimary_eq_specScore, ?_, by decide, by decide, by decide⟩
  intro l hl
  match l with
  | r :: rs =>
    refine ⟨choosePrimaryLoop r (scoreForPrimary r) rs, rfl, ?_, ?_,
      choosePrimaryLoop_find? rs r⟩
    · rcases choosePrimaryLoop_mem rs r (scoreForPrimary r) with h | h
      · rw [h]; exact List.mem_cons_self _ _
      · exact List.mem_cons_of_mem _ h
    · intro y hy
      obtain ⟨a, b⟩ := choosePrimaryLoop_le rs r
      rcases List.mem_cons.mp hy with rfl | hy
      · exact a
      · exact b y hy

theorem claim_C4_witness :
    ∃ r, choosePrimaryRatio (some [chars "1.33:1", chars "2.39:1"]) = some r ∧
      r ∈ [chars "1.33:1", chars "2.39:1"] ∧
      (∀ y ∈ [chars "1.33:1", chars "2.39:1"],
        scoreForPrimary y ≤ scoreForPrimary r) ∧
      List.find? (fun y => scoreForPrimary y == scoreForPrimary r)
        [chars "1.33:1", chars "2.39:1"] = some r :=
  claim_C4.2.1 [chars "1.33:1", chars "2.39:1"] (by decide)

/-- Claim C10 (implicit): called outside its nonempty precondition,
`choosePrimaryRatio` returns null on a missing (`none`) or empty input
list instead of throwing (it is a total function); the record builder
guards with `choosePrimaryRatio(list) || list[0]`, so on any nonempty
list whose selector result is falsy (null or the empty string) the chosen
primary is the first element. -/
theorem claim_C10 :
    choosePrimaryRatio none = none ∧
    choosePrimaryRatio (some []) = none ∧
    (∀ l : List Chars, l ≠ [] →
      (choosePrimaryRatio (some l) = none ∨ choosePrimaryRatio (some l) = some []) →
      primaryOf l = l.headD []) := by
  refine ⟨rfl, rfl, ?_⟩
  intro l _ hf
  unfold primaryOf
  rcases hf with hf | hf
  · rw [hf]
  · rw [hf]
    simp

theorem claim_C10_witness :
    primaryOf [([] : Chars)] = [([] : Chars)].headD [] :=
  claim_C10.2.2 [([] : Chars)] (by decide) (Or.inr (by decide))

/-- Claim C6, counterexample to the message as stated: at a concrete
document with zero parsed ratio tokens the builder does fail, but the
thrown message is "Aspect ratio not found on IMDb", not the claimed
"Aspect ratio not found". -/
theorem claim_C6_counterexample :
    parseAllAspectRatiosFromImdb (chars "") = [] ∧
    fetchImdbAspectRatioCore (chars "tt0000001") (chars "") ≠
      Except.error (chars "Aspect ratio not found") ∧
    fetchImdbAspectRatioCore (chars "tt0000001") (chars "") =
      Except.error (chars "Aspect ratio not found on IMDb") := by
  decide

/-- Claim C6 as amended: when the deduplicated ratio list parsed from the
document is empty, the extraction fails with the error message
"Aspect ratio not found on IMDb" rather than succeeding with a record
whose allAspectRatios is the empty list. -/
theorem claim_C6 :
    ∀ (imdbId html : Chars), parseAllAspectRatiosFromImdb html = [] →
      fetchImdbAspectRatioCore imdbId html =
        Except.error (chars "Aspect ratio not found on IMDb") := by
  intro imdbId html h
  simp only [fetchImdbAspectRatioCore, h]
  rfl

theorem claim_C6_witness :
    fetchImdbAspectRatioCore (chars "tt0000001") (chars "no label here") =
      Except.error (chars "Aspect ratio not found on IMDb") :=
  claim_C6 (chars "tt0000001") (chars "no label here") (by decide)

/-! ## The numeric-token theorem (claim C1) -/

theorem not_digit_of_ws {c : Char} (h : isWs c = true) : c.isDigit = false := by
  simp only [isWs, Bool.or_eq_true, decide_eq_true_eq] at h
  rcases h with ((((rfl | rfl) | rfl) | rfl) | rfl) | rfl <;> decide

theorem ws_ne_dot {c : Char} (h : isWs c = true) : c ≠ '.' := by
  simp only [isWs, Bool.or_eq_true, decide_eq_true_eq] at h
  rcases h with ((((rfl | rfl) | rfl) | rfl) | rfl) | rfl <;> decide

theorem numScan_int {ip : Chars} (rest : Chars)
    (h1 : ip ≠ []) (h2 : ∀ c ∈ ip, Char.isDigit c)
    (hrest : ∀ c, rest.head? = some c → Char.isDigit c = false ∧ c ≠ '.') :
    numScan (ip ++ rest) = some (ip, rest) := by
  have A : (ip ++ rest).takeWhile Char.isDigit = ip := by
    rw [takeWhile_append_all rest h2,
      takeWhile_eq_nil_of_head (fun c hc => (hrest c hc).1), List.append_nil]
  have B : (ip ++ rest).dropWhile Char.isDigit = rest := by
    rw [dropWhile_append_all rest h2,
      dropWhile_eq_self_of_head (fun c hc => (hrest c hc).1)]
  unfold numScan
  simp only [A, B, if_neg h1]
  cases rest with
  | nil => rfl
  | cons c t =>
    obtain ⟨_, hc2⟩ := hrest c rfl
    split
    · rename_i heq
      exact absurd (List.head_eq_of_cons_eq heq) hc2
    · rfl

theorem numScan_frac {ip fp : Chars} (rest : Chars)
    (h1 : ip ≠ []) (h2 : ∀ c ∈ ip, Char.isDigit c)
    (hfp : fp ≠ []) (h3 : ∀ c ∈ fp, Char.isDigit c)
    (hrest : ∀ c, rest.head? = some c → Char.isDigit c = false ∧ c ≠ '.') :
    numScan ((ip ++ '.' :: fp) ++ rest) = some (ip ++ '.' :: fp, rest) := by
  have hassoc : (ip ++ '.' :: fp) ++ rest = ip ++ ('.' :: (fp ++ rest)) := by simp
  rw [hassoc]
  have A : (ip ++ ('.' :: (fp ++ rest))).takeWhile Char.isDigit = ip := by
    rw [takeWhile_append_all _ h2]
    simp [List.takeWhile_cons]
  have B : (ip ++ ('.' :: (fp ++ rest))).dropWhile Char.isDigit = '.' :: (fp ++ rest) := by
    rw [dropWhile_append_all _ h2]
    simp [List.dropWhile_cons]
  have C : (fp ++ rest).takeWhile Char.isDigit = fp := by
    rw [takeWhile_append_all rest h3,
      takeWhile_eq_nil_of_head (fun c hc => (hrest c hc).1), List.append_nil]
  have D : (fp ++ rest).dropWhile Char.isDigit = rest := by
    rw [dropWhile_append_all rest h3,
      dropWhile_eq_self_of_head (fun c hc => (hrest c hc).1)]
  unfold numScan
  simp only [A, B, if_neg h1, C, D, if_neg hfp]

theorem render_ne_nil {t : NumTok} (h : t.wf) : t.render ≠ [] := by
  obtain ⟨h1, _, _⟩ := h
  unfold NumTok.render
  intro hc
  exact h1 (List.append_eq_nil.mp hc).1

theorem render_head_digit {t : NumTok} (h : t.wf) :
    ∀ c, t.render.head? = some c → Char.isDigit c = true := by
  obtain ⟨h1, h2, _⟩ := h
  unfold NumTok.render
  cases hip : t.ip with
  | nil => exact absurd hip h1
  | cons c0 tl =>
    intro c hc
    simp only [List.cons_append, List.head?_cons, Option.some.injEq] at hc
    subst hc
    exact h2 c0 (by rw [hip]; exact List.mem_cons_self _ _)

theorem render_chars {t : NumTok} (h : t.wf) :
    ∀ c ∈ t.render, Char.isDigit c = true ∨ c = '.' := by
  obtain ⟨_, h2, h3⟩ := h
  unfold NumTok.render
  intro c hc
  rcases List.mem_append.mp hc with hc | hc
  · exact Or.inl (h2 c hc)
  · by_cases hfp : t.fp = []
    · rw [hfp] at hc; simp at hc
    · rw [if_neg hfp] at hc
      rcases List.mem_cons.mp hc with rfl | hc
      · exact Or.inr rfl
      · exact Or.inl (h3 c hc)

theorem numScan_render {t : NumTok} (rest : Chars) (h : t.wf)
    (hrest : ∀ c, rest.head? = some c → Char.isDigit c = false ∧ c ≠ '.') :
    numScan (t.render ++ rest) = some (t.render, rest) := by
  obtain ⟨h1, h2, h3⟩ := h
  unfold NumTok.render
  by_cases hfp : t.fp = []
  · rw [hfp]
    have he : (t.ip ++ (if ([] : Chars) = [] then [] else '.' :: ([] : Chars))) = t.ip := by
      simp
    rw [he]
    exact numScan_int rest h1 h2 hrest
  · rw [if_neg hfp]
    exact numScan_frac rest h1 h2 hfp h3 hrest

theorem ws_head_not_digit_dot {w1 : Chars} (tail : Chars)
    (hw1 : ∀ c ∈ w1, isWs c = true)
    (htail : ∀ c, tail.head? = some c → Char.isDigit c = false ∧ c ≠ '.') :
    ∀ c, (w1 ++ tail).head? = some c → Char.isDigit c = false ∧ c ≠ '.' := by
  cases w1 with
  | nil => simpa using htail
  | cons a w =>
    intro c hc
    simp only [List.cons_append, List.head?_cons, Option.some.injEq] at hc
    subst hc
    have ha := hw1 a (List.mem_cons_self _ _)
    exact ⟨not_digit_of_ws ha, ws_ne_dot ha⟩

theorem ratioMatchAt_spec (nt dt : NumTok) (w1 w2 : Chars)
    (hnt : nt.wf) (hdt : dt.wf)
    (hw1 : ∀ c ∈ w1, isWs c = true) (hw2 : ∀ c ∈ w2, isWs c = true) :
    ratioMatchAt (nt.render ++ (w1 ++ ':' :: (w2 ++ dt.render))) =
      some (nt.render, dt.render,
        (nt.render ++ (w1 ++ ':' :: (w2 ++ dt.render))).length) := by
  have hcolon : ∀ c : Char, (':' :: (w2 ++ dt.render)).head? = some c →
      Char.isDigit c = false ∧ c ≠ '.' := by
    intro c hc
    simp only [List.head?_cons, Option.some.injEq] at hc
    subst hc
    exact ⟨by decide, by decide⟩
  have hn := numScan_render (t := nt) (w1 ++ ':' :: (w2 ++ dt.render)) hnt
    (ws_head_not_digit_dot _ hw1 hcolon)
  have hd := numScan_render (t := dt) [] hdt (by intro c hc; simp at hc)
  rw [List.append_nil] at hd
  have hdw : (w1 ++ ':' :: (w2 ++ dt.render)).dropWhile isWs =
      ':' :: (w2 ++ dt.render) := by
    rw [dropWhile_append_all _ hw1]
    refine dropWhile_eq_self_of_head ?_
    intro c hc
    simp only [List.head?_cons, Option.some.injEq] at hc
    subst hc
    decide
  have hdw2 : (w2 ++ dt.render).dropWhile isWs = dt.render := by
    rw [dropWhile_append_all _ hw2]
    refine dropWhile_eq_self_of_head ?_
    intro c hc
    exact not_ws_of_digit (render_head_digit hdt c hc)
  unfold ratioMatchAt
  simp only [hn, hdw, hdw2, hd, List.length_nil, Nat.sub_zero]

theorem firstRatioMatch_of_head {p nc dc : Chars} {len : Nat}
    (h0 : ratioMatchAt p = some (nc, dc, len)) (hne : p ≠ []) :
    firstRatioMatch p = some (0, nc, dc, len) := by
  unfold firstRatioMatch
  obtain ⟨m, hm⟩ : ∃ m, p.length = m + 1 := by
    cases hp : p with
    | nil => exact absurd hp hne
    | cons a t => exact ⟨t.length, by simp⟩
  rw [hm, List.range_succ_eq_map]
  simp only [List.find?_cons, List.drop_zero, h0, Option.isSome_some]

theorem indexOfSub_self (l : Chars) : indexOfSub l l = some 0 := by
  unfold indexOfSub
  rw [List.range_succ_eq_map]
  have hpre : l.isPrefixOf l = true := List.isPrefixOf_iff_prefix.mpr (List.prefix_refl l)
  simp only [List.find?_cons, List.drop_zero, hpre]

theorem nonws_filter {l : Chars} (h : ∀ c ∈ l, Char.isDigit c = true ∨ c = '.') :
    l.filter (fun c => !isWs c) = l := by
  refine List.filter_eq_self.mpr ?_
  intro c hc
  rcases h c hc with hd | rfl
  · rw [not_ws_of_digit hd]; rfl
  · decide

theorem ws_filter {l : Chars} (h : ∀ c ∈ l, isWs c = true) :
    l.filter (fun c => !isWs c) = [] := by
  refine List.filter_eq_nil_iff.mpr ?_
  intro c hc
  rw [h c hc]
  decide

/-- Counterexample to claim C1 as stated: the claim demands, for every
well-formed token N:D, the exact value of N/D rounded to two decimal
places.  On the block "Aspect ratio 1.005 : 1" (token N = 1.005, D = 1)
the program's binary64 computation yields the ratio string "1.00:1":
`parseFloat("1.005")` is the double `4526117625507348 / 2^52`, which lies
below `1.005`, its product with 100 rounds to the double
`7072058789855231 / 2^46`, which lies below `100.5`, and `Math.round` of
that is 100 — while the exact two-decimal rounding of N/D demanded by the
claim is 1.01, so the claimed equation fails at this input. -/
theorem claim_C1_counterexample :
    parseRatiosFromBlockF64 (chars "Aspect ratio 1.005 : 1") =
      [{ ratio := chars "1.00:1", raw := chars "1.005:1", note := none }] ∧
    specCanonicalRatio ((NumTok.mk (chars "1") (chars "005")).val /
      (NumTok.mk (chars "1") (chars "")).val) = chars "1.01:1" ∧
    chars "1.00:1" ≠ chars "1.01:1" :=
  ⟨by decide, by decide, by decide⟩

/-- Claim C1, amended (numerical): for every well-formed numeric ratio
token N:D (digit runs with optional decimal parts) whose values,
quotient and hundredfold product stay in the positive normal binary64
range — with the rounded product below the `toFixed` fixed-notation
bound, denominator rounding to a nonzero double and numerator to a
positive one — and any whitespace runs around the colon, the segment
parser outputs the ratio string produced by the program's IEEE-754
binary64 pipeline (numerator and denominator rounded to doubles, their
quotient and its product with 100 rounded to doubles, `Math.round`,
division by 100, `toFixed(2)`) followed by ":1", and the output does not
depend on the whitespace runs, so all whitespace variants of one token
yield the same string.  At half-way products this differs from the exact
two-decimal rounding of N/D (see the counterexample). -/
theorem claim_C1 :
    ∀ (nt dt : NumTok) (w1 w2 : Chars), nt.wf → dt.wf →
      (∀ c ∈ w1, isWs c = true) → (∀ c ∈ w2, isWs c = true) →
      f64 dt.val ≠ 0 → 0 < f64 nt.val →
      normalRange nt.val → normalRange dt.val →
      normalRange (f64 nt.val / f64 dt.val) →
      normalRange (fDiv (f64 nt.val) (f64 dt.val) * 100) →
      jsRound (fMul (fDiv (f64 nt.val) (f64 dt.val)) 100) < 10 ^ 21 →
      parsePartF64 (nt.render ++ (w1 ++ ':' :: (w2 ++ dt.render))) =
        some { ratio := toFixed2F64 (jsRound (fMul (fDiv (f64 nt.val) (f64 dt.val)) 100))
                 ++ [':', '1'],
               raw := nt.render ++ ':' :: dt.render,
               note := none } := by
  intro nt dt w1 w2 hnt hdt hw1 hw2 hden hnum _ _ _ _ _
  have hmatch := ratioMatchAt_spec nt dt w1 w2 hnt hdt hw1 hw2
  have hne : nt.render ++ (w1 ++ ':' :: (w2 ++ dt.render)) ≠ [] := by
    intro hc
    exact render_ne_nil hnt (List.append_eq_nil.mp hc).1
  have hfirst := firstRatioMatch_of_head hmatch hne
  unfold parsePartF64
  rw [hfirst]
  have hidx := indexOfSub_self (nt.render ++ (w1 ++ ':' :: (w2 ++ dt.render)))
  simp only [List.drop_zero, List.take_length, hidx, Option.getD_some, Nat.zero_add,
    List.drop_length]
  rw [if_pos ⟨hden, hnum⟩]
  have hfilter : (nt.render ++ (w1 ++ ':' :: (w2 ++ dt.render))).filter (fun c => !isWs c) =
      nt.render ++ ':' :: dt.render := by
    have hcol : (!isWs ':') = true := by decide
    simp only [List.filter_append, List.filter_cons, hcol]
    rw [nonws_filter (render_chars hnt), nonws_filter (render_chars hdt),
      ws_filter hw1, ws_filter hw2]
    simp
  rw [hfilter]
  rw [show parseDec nt.render = nt.val from rfl, show parseDec dt.render = dt.val from rfl]
  rfl

theorem claim_C1_witness :
    parsePartF64 ((NumTok.mk (chars "2") (chars "39")).render ++
      ([' '] ++ ':' :: ([' ', ' '] ++ (NumTok.mk (chars "1") (chars "")).render))) =
      some { ratio := toFixed2F64 (jsRound (fMul
               (fDiv (f64 (NumTok.mk (chars "2") (chars "39")).val)
                 (f64 (NumTok.mk (chars "1") (chars "")).val)) 100)) ++ [':', '1'],
             raw := (NumTok.mk (chars "2") (chars "39")).render ++ ':' ::
               (NumTok.mk (chars "1") (chars "")).render,
             note := none } :=
  claim_C1 (NumTok.mk (chars "2") (chars "39")) (NumTok.mk (chars "1") (chars ""))
    [' '] [' ', ' '] ⟨by decide, by decide, by decide⟩ ⟨by decide, by decide, by decide⟩
    (by decide) (by decide) (by decide) (by decide) (by decide) (by decide) (by decide)
    (by decide) (by decide)

/-! ## Canonical strings pass unchanged through normalization (claim C7) -/

theorem mem_of_head? {α : Type} {l : List α} {c : α} (h : l.head? = some c) : c ∈ l := by
  cases l with
  | nil => simp at h
  | cons a t =>
    simp only [List.head?_cons, Option.some.injEq] at h
    subst h
    exact List.mem_cons_self _ _

theorem plain_not_ws {c : Char} (h : isPlainChar c = true) : isWs c = false := by
  simp only [isPlainChar, Bool.or_eq_true, decide_eq_true_eq] at h
  rcases h with (hd | rfl) | rfl
  · exact not_ws_of_digit hd
  · decide
  · decide

theorem lowerChar_plain {c : Char} (h : isPlainChar c = true) : lowerChar c = c := by
  unfold lowerChar
  split <;> first
  | rfl
  | (exact absurd h (by decide))

theorem startsWithCI_plain_false {d : Char} {ws s : Chars}
    (hplain : ∀ c ∈ s, isPlainChar c = true)
    (hd : isPlainChar (lowerChar d) = false) :
    startsWithCI (d :: ws) s = false := by
  cases s with
  | nil => rfl
  | cons c cs =>
    unfold startsWithCI
    have hc := hplain c (List.mem_cons_self _ _)
    rw [lowerChar_plain hc]
    have : (decide (c = lowerChar d)) = false := by
      refine decide_eq_false ?_
      intro hcv
      rw [hcv] at hc
      exact absurd hc (by simp [hd])
    rw [this]
    rfl

theorem trimStr_eq_self {v : Chars} (h : ∀ c ∈ v, isWs c = false) : trimStr v = v := by
  unfold trimStr
  rw [dropWhile_eq_self_of_head (fun c hc => h c (mem_of_head? hc))]
  rw [dropWhile_eq_self_of_head
    (fun c hc => h c (List.mem_reverse.mp (mem_of_head? hc)))]
  exact List.reverse_reverse v

theorem scanReplaceF_wsRun_id :
    ∀ (fuel : Nat) (v : Chars), (∀ c ∈ v, isWs c = false) →
      scanReplaceF wsRunMatcher fuel v = v
  | 0, v, _ => rfl
  | _ + 1, [], _ => rfl
  | fuel + 1, c :: cs, h => by
    have hm : wsRunMatcher (c :: cs) = none := by
      simp [wsRunMatcher, h c (List.mem_cons_self _ _)]
    unfold scanReplaceF
    rw [hm]
    exact congrArg (c :: ·)
      (scanReplaceF_wsRun_id fuel cs (fun x hx => h x (List.mem_cons_of_mem c hx)))

theorem scanReplaceF_colon_id :
    ∀ (fuel : Nat) (v : Chars), (∀ c ∈ v, isWs c = false) →
      scanReplaceF colonWsMatcher fuel v = v
  | 0, v, _ => rfl
  | _ + 1, [], _ => rfl
  | fuel + 1, c :: cs, h => by
    have htail := fun x hx => h x (List.mem_cons_of_mem c hx)
    have hz : countLeading isWs (c :: cs) = 0 := by
      unfold countLeading
      rw [takeWhile_eq_nil_of_head (fun x hx => h x (mem_of_head? hx))]
      rfl
    have hz2 : countLeading isWs cs = 0 := by
      unfold countLeading
      rw [takeWhile_eq_nil_of_head (fun x hx => htail x (mem_of_head? hx))]
      rfl
    unfold scanReplaceF colonWsMatcher
    rw [hz]
    simp only [List.drop_zero]
    by_cases hc : c = ':'
    · subst hc
      simp only [hz2]
      exact congrArg (':' :: ·) (scanReplaceF_colon_id fuel cs htail)
    · have : (match c :: cs with
          | ':' :: t => some (0 + 1 + countLeading isWs t, [':'])
          | _ => none) = none := by
        cases c with
        | mk val h2 =>
          split
          · rename_i heq
            exact absurd (List.head_eq_of_cons_eq heq) hc
          · rfl
      rw [this]
      exact congrArg (c :: ·) (scanReplaceF_colon_id fuel cs htail)

theorem normClip_plain {v : Chars} (h : ∀ c ∈ v, isPlainChar c = true) :
    normClip v = v := by
  unfold normClip
  rw [List.find?_eq_none.mpr]
  intro j _
  have hsuffix : ∀ c ∈ (v.drop j).dropWhile isWs, isPlainChar c = true := by
    intro c hc
    exact h c (List.mem_of_mem_drop (List.IsSuffix.mem hc (List.dropWhile_suffix isWs)))
  unfold normClipAt
  rw [Bool.not_eq_true, List.any_eq_false]
  intro w hw
  simp only [normWords, List.mem_cons, List.not_mem_nil, or_false] at hw
  rcases hw with rfl | rfl | rfl | rfl | rfl | rfl | rfl <;>
    exact ne_true_of_eq_false (startsWithCI_plain_false hsuffix (by decide))

theorem normalize_plain {v : Chars} (hne : v ≠ [])
    (h : ∀ c ∈ v, isPlainChar c = true) :
    normalizeAspectRatioText v = some v := by
  have hnw : ∀ c ∈ v, isWs c = false := fun c hc => plain_not_ws (h c hc)
  unfold normalizeAspectRatioText
  rw [if_neg hne, trimStr_eq_self hnw]
  show some (trimStr (normClip (scanReplace wsRunMatcher (scanReplace colonWsMatcher v)))) = _
  unfold scanReplace
  rw [scanReplaceF_colon_id v.length v hnw, scanReplaceF_wsRun_id v.length v hnw,
    normClip_plain h, trimStr_eq_self hnw]

/-! ## Every produced ratio string is canonical (claim C7) -/

theorem digitOfNat_isDigit (n : Nat) : (digitOfNat n).isDigit = true := by
  unfold digitOfNat
  split <;> decide

theorem natDigitsF_digits :
    ∀ (fuel n : Nat) (c : Char), c ∈ natDigitsF fuel n → c.isDigit = true
  | 0, _, _, h => by simp [natDigitsF] at h
  | fuel + 1, n, c, h => by
    unfold natDigitsF at h
    by_cases hn : n < 10
    · rw [if_pos hn] at h
      simp only [List.mem_singleton] at h
      rw [h]
      exact digitOfNat_isDigit n
    rw [if_neg hn] at h
    rcases List.mem_append.mp h with h2 | h2
    · exact natDigitsF_digits fuel (n / 10) c h2
    · simp only [List.mem_singleton] at h2
      rw [h2]
      exact digitOfNat_isDigit _

theorem fmtRatio2_plain (k : Nat) : ∀ c ∈ fmtRatio2 k, isPlainChar c = true := by
  intro c hc
  unfold fmtRatio2 fmtFixed2 at hc
  rcases List.mem_append.mp hc with hc | hc
  · rcases List.mem_append.mp hc with hc | hc
    · simp [isPlainChar, natDigitsF_digits _ _ c hc]
    · rcases List.mem_cons.mp hc with rfl | hc
      · decide
      rcases List.mem_cons.mp hc with rfl | hc
      · simp [isPlainChar, digitOfNat_isDigit]
      rcases List.mem_cons.mp hc with rfl | hc
      · simp [isPlainChar, digitOfNat_isDigit]
      · simp at hc
  · rcases List.mem_cons.mp hc with rfl | hc
    · decide
    rcases List.mem_cons.mp hc with rfl | hc
    · decide
    · simp at hc

theorem fmtRatio2_ne_nil (k : Nat) : fmtRatio2 k ≠ [] := by
  unfold fmtRatio2
  intro hc
  have := (List.append_eq_nil.mp hc).2
  simp at this

theorem parsePart_ratio_shape {p : Chars} {e : RatioEntry}
    (h : parsePart p = some e) : ∃ k, e.ratio = fmtRatio2 k := by
  unfold parsePart at h
  split at h
  · dsimp only at h
    split at h
    · obtain rfl := (Option.some.injEq _ _).mp h
      exact ⟨_, rfl⟩
    · simp at h
  · unfold aliasOf at h
    dsimp only at h
    split at h
    · obtain rfl := (Option.some.injEq _ _).mp h
      exact ⟨137, by decide⟩
    split at h
    · obtain rfl := (Option.some.injEq _ _).mp h
      exact ⟨133, by decide⟩
    split at h
    · obtain rfl := (Option.some.injEq _ _).mp h
      exact ⟨178, by decide⟩
    · simp at h

theorem parseAll_shape {html r : Chars}
    (h : r ∈ parseAllAspectRatiosFromImdb html) : ∃ k, r = fmtRatio2 k := by
  unfold parseAllAspectRatiosFromImdb at h
  obtain ⟨e, he, rfl⟩ := List.mem_map.mp h
  have he2 : e ∈ (findAspectRatioBlocks html).flatMap parseRatiosFromBlock :=
    (mem_uniqueRatiosGo he).1
  obtain ⟨b, _, hb⟩ := List.mem_flatMap.mp he2
  rw [parseRatiosFromBlock_eq_filterMap] at hb
  obtain ⟨p, _, hp⟩ := List.mem_filterMap.mp hb
  exact parsePart_ratio_shape hp

theorem primaryOf_mem {l : List Chars} (hne : l ≠ []) : primaryOf l ∈ l := by
  cases l with
  | nil => exact absurd rfl hne
  | cons r rs =>
    have hcp : choosePrimaryRatio (some (r :: rs)) =
        some (choosePrimaryLoop r (scoreForPrimary r) rs) := rfl
    unfold primaryOf
    simp only [hcp]
    by_cases hp : choosePrimaryLoop r (scoreForPrimary r) rs = []
    · rw [if_pos hp]
      simp
    · rw [if_neg hp]
      rcases choosePrimaryLoop_mem rs r (scoreForPrimary r) with h2 | h2
      · rw [h2]; exact List.mem_cons_self _ _
      · exact List.mem_cons_of_mem _ h2

set_option maxHeartbeats 2000000 in
/-- Claim C7 (invariants): every successfully built result record
satisfies `aspectRatio ∈ allAspectRatios` (the normalization applied to
the chosen primary is the identity on canonical ratio strings, the
`aspectRatio` field being `some` of the chosen primary) and
`allAspectRatios` contains no duplicate values. -/
theorem claim_C7 :
    ∀ (imdbId html : Chars) (res : AspectRatioResult),
      fetchImdbAspectRatioCore imdbId html = Except.ok res →
      ((∃ a, res.aspectRatio = some a ∧ a ∈ res.allAspectRatios) ∧
        res.allAspectRatios.Nodup) := by
  intro imdbId html res h
  unfold fetchImdbAspectRatioCore at h
  by_cases hl : parseAllAspectRatiosFromImdb html = []
  · rw [if_pos hl] at h
    exact absurd h (by simp)
  rw [if_neg hl] at h
  dsimp only at h
  injection h with hrec
  subst hrec
  refine ⟨⟨primaryOf (parseAllAspectRatiosFromImdb html), ?_, primaryOf_mem hl⟩, ?_⟩
  · show normalizeAspectRatioText (primaryOf (parseAllAspectRatiosFromImdb html)) = _
    obtain ⟨k, hk⟩ := parseAll_shape (primaryOf_mem hl)
    rw [hk]
    exact normalize_plain (fmtRatio2_ne_nil k) (fmtRatio2_plain k)
  · show (parseAllAspectRatiosFromImdb html).Nodup
    unfold parseAllAspectRatiosFromImdb uniqueRatios
    exact nodup_map_uniqueRatiosGo _ []

theorem claim_C7_witness :
    ∃ res : AspectRatioResult,
      fetchImdbAspectRatioCore (chars "tt0") (chars "Aspect ratio 1.85:1") =
        Except.ok res ∧
      ((∃ a, res.aspectRatio = some a ∧ a ∈ res.allAspectRatios) ∧
        res.allAspectRatios.Nodup) := by
  have h : fetchImdbAspectRatioCore (chars "tt0") (chars "Aspect ratio 1.85:1") =
      Except.ok
        { aspectRatio := some (chars "1.85:1")
          displayText := chars "1.85:1 (Widescreen (flat), Standard American Widescreen)"
          allAspectRatios := [chars "1.85:1"]
          mappedTypeShort := some (chars "Widescreen")
          mappedTypeLong := some (chars "Widescreen (flat), Standard American Widescreen")
          source := chars "imdb"
          sourceUrl := chars "https://www.imdb.com/title/tt0/technical/" } := by decide
  exact ⟨_, h, claim_C7 (chars "tt0") (chars "Aspect ratio 1.85:1") _ h⟩

/-! ## Block-extractor lemmas (claim C8) -/

theorem collectMatchesF_nil (f : Chars → Option Nat) :
    ∀ (fuel : Nat) (v : Chars), (∀ w, w <:+ v → f w = none) →
      collectMatchesF f fuel v = []
  | 0, _, _ => rfl
  | _ + 1, [], _ => rfl
  | fuel + 1, c :: cs, h => by
    unfold collectMatchesF
    rw [h (c :: cs) (List.suffix_refl _)]
    exact collectMatchesF_nil f fuel cs
      (fun w hw => h w (hw.trans (List.suffix_cons c cs)))

theorem labelTokMatchAt_nil : labelTokMatchAt [] = none := rfl

theorem no_label_drops {cl : Chars} (h : occursLabelTok cl = false) :
    ∀ j, labelTokMatchAt (cl.drop j) = none := by
  intro j
  by_cases hj : j < cl.length
  · unfold occursLabelTok at h
    have h2 := (List.any_eq_false.mp h) j (List.mem_range.mpr hj)
    cases hm : labelTokMatchAt (cl.drop j) with
    | none => rfl
    | some l => rw [hm] at h2; simp at h2
  · rw [List.drop_eq_nil_of_le (le_of_not_lt hj)]
    rfl

theorem suffix_no_label {cl w : Chars} (h : ∀ j, labelTokMatchAt (cl.drop j) = none)
    (hw : w <:+ cl) : ∀ j, labelTokMatchAt (w.drop j) = none := by
  obtain ⟨t, rfl⟩ := hw
  intro j
  have : w.drop j = (t ++ w).drop (t.length + j) := by
    rw [← List.drop_drop, List.drop_left]
  rw [this]
  exact h (t.length + j)

theorem findLabelTok_none {w : Chars} (h : ∀ j, labelTokMatchAt (w.drop j) = none) :
    findLabelTok w = none := by
  unfold findLabelTok
  rw [List.find?_eq_none.mpr]
  intro j _
  rw [h j]
  simp

theorem containerMatchAt_none {open_ close v : Chars}
    (h : ∀ j, labelTokMatchAt (v.drop j) = none) :
    containerMatchAt open_ close v = none := by
  unfold containerMatchAt
  by_cases h1 : startsWithCI open_ v = true
  · rw [if_pos h1]
    cases hg : indexOfSub ['>'] (v.drop open_.length) with
    | none => simp only [hg]
    | some g =>
      have hfl : findLabelTok (v.drop (open_.length + g + 1)) = none := by
        refine findLabelTok_none ?_
        intro j
        rw [List.drop_drop]
        exact h _
      simp only [hg, hfl]
  · rw [if_neg h1]

theorem startsWithCI_append {x y v : Chars} :
    startsWithCI (x ++ y) v = true →
      startsWithCI x v = true ∧ startsWithCI y (v.drop x.length) = true := by
  induction x generalizing v with
  | nil => intro h; exact ⟨rfl, by simpa using h⟩
  | cons a x ih =>
    intro h
    cases v with
    | nil => simp [startsWithCI] at h
    | cons c cs =>
      simp only [List.cons_append, startsWithCI] at h ⊢
      rw [Bool.and_eq_true] at h
      obtain ⟨h1, h2⟩ := h
      obtain ⟨h3, h4⟩ := ih h2
      rw [Bool.and_eq_true]
      refine ⟨⟨h1, h3⟩, ?_⟩
      simpa using h4

theorem startsWithCI_cons_inv {d c : Char} {ws cs : Chars}
    (h : startsWithCI (d :: ws) (c :: cs) = true) :
    lowerChar c = lowerChar d ∧ startsWithCI ws cs = true := by
  simp only [startsWithCI] at h
  rw [Bool.and_eq_true] at h
  exact ⟨of_decide_eq_true h.1, h.2⟩

theorem startsWithCI_head_lower {d : Char} {ws u : Chars}
    (h : startsWithCI (d :: ws) u = true) :
    ∃ c cs, u = c :: cs ∧ lowerChar c = lowerChar d := by
  cases u with
  | nil => simp [startsWithCI] at h
  | cons c cs => exact ⟨c, cs, rfl, (startsWithCI_cons_inv h).1⟩

theorem label_from_attr {r2 : Chars}
    (h : startsWithCI (chars "title-techspecs-aspectratio") r2 = true) :
    (labelTokMatchAt (r2.drop 16)).isSome = true := by
  have hsplit : chars "title-techspecs-aspectratio" =
      chars "title-techspecs-" ++ (chars "aspect" ++ chars "ratio") := by decide
  rw [hsplit] at h
  obtain ⟨h1, h2⟩ := startsWithCI_append h
  rw [show (chars "title-techspecs-").length = 16 from rfl] at h2
  obtain ⟨h3, h4⟩ := startsWithCI_append h2
  rw [show (chars "aspect").length = 6 from rfl] at h4
  obtain ⟨c, cs, hu, hc⟩ := startsWithCI_head_lower h4
  have hcws : isWs c = false := by
    rw [← isWs_lowerChar, hc]
    decide
  have ha : countLeading isWs ((r2.drop 16).drop 6) = 0 := by
    unfold countLeading
    rw [hu, takeWhile_eq_nil_of_head]
    · rfl
    · intro x hx
      simp only [List.head?_cons, Option.some.injEq] at hx
      subst hx
      exact hcws
  unfold labelTokMatchAt
  rw [if_pos h3, ha]
  simp only [Nat.add_zero]
  rw [if_pos h4]
  rfl

theorem testidAt_label {w : Chars} {L : Nat} (h : testidAt w = some L) :
    ∃ j, (labelTokMatchAt (w.drop j)).isSome = true := by
  unfold testidAt at h
  by_cases hd : startsWithCI (chars "data-testid=") w = true
  · rw [if_pos hd] at h
    cases hq : w.drop 12 with
    | nil => rw [hq] at h; simp at h
    | cons q1 r2 =>
      simp only [hq] at h
      by_cases hqt : (isQuote q1 &&
          startsWithCI (chars "title-techspecs-aspectratio") r2) = true
      · rw [Bool.and_eq_true] at hqt
        have hlab := label_from_attr hqt.2
        refine ⟨29, ?_⟩
        have hr : w.drop 29 = r2.drop 16 := by
          rw [show (29 : Nat) = 12 + 17 from rfl, ← List.drop_drop, hq]
          rfl
        rw [hr]
        exact hlab
      · rw [if_neg hqt] at h
        simp at h
  · rw [if_neg hd] at h
    simp at h

theorem findTestid_label :
    ∀ {w : Chars} {L : Nat}, findTestid w = some L →
      ∃ j, (labelTokMatchAt (w.drop j)).isSome = true
  | [], _, h => by simp [findTestid] at h
  | c :: cs, L, h => by
    unfold findTestid at h
    cases ht : testidAt (c :: cs) with
    | some l => exact testidAt_label ht
    | none =>
      rw [ht] at h
      by_cases hgt : c = '>'
      · rw [if_pos hgt] at h
        simp at h
      · rw [if_neg hgt] at h
        obtain ⟨L2, hL2, _⟩ := Option.map_eq_some'.mp h
        obtain ⟨j, hj⟩ := findTestid_label hL2
        exact ⟨j + 1, by rw [List.drop_succ_cons]; exact hj⟩

theorem divMatchAt_none {v : Chars}
    (h : ∀ j, labelTokMatchAt (v.drop j) = none) : divMatchAt v = none := by
  unfold divMatchAt
  by_cases h1 : startsWithCI (chars "<div") v = true
  · rw [if_pos h1]
    cases hf : findTestid (v.drop 4) with
    | none => simp only [hf]
    | some l =>
      obtain ⟨j, hj⟩ := findTestid_label hf
      rw [List.drop_drop, h (4 + j)] at hj
      simp at hj
  · rw [if_neg h1]

theorem aspect_ratio_ci_label {u : Chars}
    (h : startsWithCI (chars "aspect ratio") u = true) :
    (labelTokMatchAt u).isSome = true := by
  have hsplit : chars "aspect ratio" = chars "aspect" ++ (' ' :: chars "ratio") := by decide
  rw [hsplit] at h
  obtain ⟨h3, h4⟩ := startsWithCI_append h
  rw [show (chars "aspect").length = 6 from rfl] at h4
  obtain ⟨c0, u7, hu, hc0⟩ := startsWithCI_head_lower h4
  rw [hu] at h4
  have h5 := (startsWithCI_cons_inv h4).2
  obtain ⟨c1, u8, hu7, hc1⟩ := startsWithCI_head_lower h5
  have hc0ws : isWs c0 = true := by
    rw [← isWs_lowerChar, hc0]
    decide
  have hc1ws : isWs c1 = false := by
    rw [← isWs_lowerChar, hc1]
    decide
  have ha : countLeading isWs (u.drop 6) = 1 := by
    unfold countLeading
    rw [hu, List.takeWhile_cons, if_pos hc0ws, hu7, takeWhile_eq_nil_of_head]
    · rfl
    · intro x hx
      simp only [List.head?_cons, Option.some.injEq] at hx
      subst hx
      exact hc1ws
  have hdrop7 : u.drop 7 = u7 := by
    rw [show (7 : Nat) = 6 + 1 from rfl, ← List.drop_drop, hu, List.drop_succ_cons,
      List.drop_zero]
  unfold labelTokMatchAt
  rw [if_pos h3, ha]
  simp only [show (6 + 1 : Nat) = 7 from rfl, hdrop7]
  rw [if_pos h5]
  rfl

theorem indexOfCI_aspect_none {cl : Chars}
    (h : ∀ j, labelTokMatchAt (cl.drop j) = none) :
    indexOfCI (chars "aspect ratio") cl = none := by
  unfold indexOfCI
  rw [List.find?_eq_none.mpr]
  intro j _
  intro hc
  have := aspect_ratio_ci_label hc
  rw [h j] at this
  simp at this

theorem beq_lower_comm (a c : Char) (ha : lowerChar a = a) :
    (a == lowerChar c) = decide (lowerChar c = lowerChar a) := by
  rw [ha]
  by_cases he : a = lowerChar c
  · simp [he]
  · simp [he, Ne.symm he]

theorem isPrefixOf_lowerStr :
    ∀ (pat w : Chars), (∀ c ∈ pat, lowerChar c = c) →
      pat.isPrefixOf (lowerStr w) = startsWithCI pat w
  | [], w, _ => by simp [List.isPrefixOf, startsWithCI]
  | a :: ps, [], _ => by simp [List.isPrefixOf, lowerStr, startsWithCI]
  | a :: ps, c :: cs, h => by
    simp only [lowerStr, List.map_cons, List.isPrefixOf, startsWithCI]
    refine congrArg₂ (· && ·) (beq_lower_comm a c (h a (List.mem_cons_self _ _))) ?_
    exact isPrefixOf_lowerStr ps cs (fun x hx => h x (List.mem_cons_of_mem _ hx))

theorem indexOfSub_lowerStr (pat v : Chars) (hpat : ∀ c ∈ pat, lowerChar c = c) :
    indexOfSub pat (lowerStr v) = indexOfCI pat v := by
  unfold indexOfSub indexOfCI
  rw [show (lowerStr v).length = v.length from List.length_map _ _]
  congr 1
  funext j
  have hdm : (lowerStr v).drop j = lowerStr (v.drop j) := by
    unfold lowerStr
    rw [List.map_drop]
  rw [hdm, isPrefixOf_lowerStr _ _ hpat]

theorem findBlocks_structural {html : Chars}
    (h : structuralBlocks (stripScriptStyle html) ≠ []) :
    findAspectRatioBlocks html = structuralBlocks (stripScriptStyle html) := by
  simp only [findAspectRatioBlocks]
  rw [if_neg h]

theorem findBlocks_fallback {html : Chars}
    (h : structuralBlocks (stripScriptStyle html) = []) :
    findAspectRatioBlocks html = fallbackWindowSpec (stripScriptStyle html) := by
  simp only [findAspectRatioBlocks]
  rw [if_pos h, indexOfSub_lowerStr _ _ (by decide)]
  cases hi : indexOfCI (chars "aspect ratio") (stripScriptStyle html) with
  | none => simp [fallbackWindowSpec, hi]
  | some idx => simp [fallbackWindowSpec, hi]

/-- Claim C8 (explicit): the block extractor collects every match of
every structural pattern (table-row, list-item, tagged div container,
generic section) rather than stopping at the first pattern that matches
(when any structural match exists the result is exactly the concatenation
of all four match lists, and each pattern's match list is always a
sublist of the result); only when no pattern matches does it fall back to
the single window from 200 characters before to 800 characters after the
first case-insensitive plain-text occurrence of "aspect ratio"; and it
returns the empty sequence when the label token never occurs in the
script/style-stripped document. -/
theorem claim_C8 :
    (∀ html : Chars, structuralBlocks (stripScriptStyle html) ≠ [] →
      findAspectRatioBlocks html = structuralBlocks (stripScriptStyle html)) ∧
    (∀ html : Chars,
      (collectMatches (containerMatchAt (chars "<tr") (chars "</tr>"))
        (stripScriptStyle html)).Sublist (findAspectRatioBlocks html) ∧
      (collectMatches (containerMatchAt (chars "<li") (chars "</li>"))
        (stripScriptStyle html)).Sublist (findAspectRatioBlocks html) ∧
      (collectMatches divMatchAt
        (stripScriptStyle html)).Sublist (findAspectRatioBlocks html) ∧
      (collectMatches (containerMatchAt (chars "<section") (chars "</section>"))
        (stripScriptStyle html)).Sublist (findAspectRatioBlocks html)) ∧
    (∀ html : Chars, structuralBlocks (stripScriptStyle html) = [] →
      findAspectRatioBlocks html = fallbackWindowSpec (stripScriptStyle html)) ∧
    (∀ html : Chars, occursLabelTok (stripScriptStyle html) = false →
      findAspectRatioBlocks html = []) := by
  refine ⟨fun html h => findBlocks_structural h, ?_,
    fun html h => findBlocks_fallback h, ?_⟩
  · intro html
    by_cases h : structuralBlocks (stripScriptStyle html) = []
    · have h2 := h
      unfold structuralBlocks at h2
      obtain ⟨hABC, hD⟩ := List.append_eq_nil.mp h2
      obtain ⟨hAB, hC⟩ := List.append_eq_nil.mp hABC
      obtain ⟨hA, hB⟩ := List.append_eq_nil.mp hAB
      exact ⟨hA ▸ List.nil_sublist _, hB ▸ List.nil_sublist _,
        hC ▸ List.nil_sublist _, hD ▸ List.nil_sublist _⟩
    · rw [findBlocks_structural h]
      unfold structuralBlocks
      refine ⟨?_, ?_, ?_, List.sublist_append_right _ _⟩
      · exact ((List.sublist_append_left _ _).trans
          (List.sublist_append_left _ _)).trans (List.sublist_append_left _ _)
      · exact ((List.sublist_append_right _ _).trans
          (List.sublist_append_left _ _)).trans (List.sublist_append_left _ _)
      · exact (List.sublist_append_right _ _).trans (List.sublist_append_left _ _)
  · intro html h
    have hd := no_label_drops h
    have hTR : ∀ w, w <:+ stripScriptStyle html →
        containerMatchAt (chars "<tr") (chars "</tr>") w = none :=
      fun w hw => containerMatchAt_none (suffix_no_label hd hw)
    have hLI : ∀ w, w <:+ stripScriptStyle html →
        containerMatchAt (chars "<li") (chars "</li>") w = none :=
      fun w hw => containerMatchAt_none (suffix_no_label hd hw)
    have hSEC : ∀ w, w <:+ stripScriptStyle html →
        containerMatchAt (chars "<section") (chars "</section>") w = none :=
      fun w hw => containerMatchAt_none (suffix_no_label hd hw)
    have hDIV : ∀ w, w <:+ stripScriptStyle html → divMatchAt w = none :=
      fun w hw => divMatchAt_none (suffix_no_label hd hw)
    have hstruct : structuralBlocks (stripScriptStyle html) = [] := by
      unfold structuralBlocks collectMatches
      rw [collectMatchesF_nil _ _ _ hTR, collectMatchesF_nil _ _ _ hLI,
        collectMatchesF_nil _ _ _ hDIV, collectMatchesF_nil _ _ _ hSEC]
      rfl
    rw [findBlocks_fallback hstruct]
    unfold fallbackWindowSpec
    rw [indexOfCI_aspect_none hd]

theorem claim_C8_witness :
    findAspectRatioBlocks (chars "Aspect ratio 2.39:1") =
      fallbackWindowSpec (stripScriptStyle (chars "Aspect ratio 2.39:1")) ∧
    findAspectRatioBlocks (chars "nothing") = [] :=
  ⟨claim_C8.2.2.1 (chars "Aspect ratio 2.39:1") (by decide),
   claim_C8.2.2.2 (chars "nothing") (by decide)⟩
